import Mathlib

/- Verification of the momi demographic-inference core: a shallow embedding of
`size_history.py`, `moran_model.py` and `demography.py`.

Modelling conventions used throughout:
- Python floats are idealized as exact rationals (`ℚ`), keeping every
  definition computable and every atomic comparison decidable.
- The transcendental primitives of the numeric library (`exp`, `log`,
  `gammaln`) are abstracted as function parameters: none of the verified
  properties depends on their analytic values, so the theorems below hold
  for the true functions as a special case.
- `float('inf')` (an admissible value of `tau`) is modelled by `Option ℚ`
  with `none` standing for the infinite value.
- Code that can raise (`assert`, `raise`, `KeyError`) is modelled by
  `Option`/`Except` results; `none`/`.error` is a raised exception. -/

namespace Momi

/-- Polanski-Kimmel weight `W(n, b, j)` of `size_history.py`: base cases at
`j = 2` and `j = 3`, and for larger `j` the two-term recurrence of the source
(with `jj = j - 2`).  The source never evaluates `W` at `j < 2`; those values
are set to `0` here. -/
def W (n b : ℕ) : ℕ → ℚ
  | 0 => 0
  | 1 => 0
  | 2 => 6 / ((n : ℚ) + 1)
  | 3 => 30 * ((n : ℚ) - 2 * b) / ((n : ℚ) + 1) / ((n : ℚ) + 2)
  | (j + 4) =>
      let jj : ℚ := (j : ℚ) + 2
      W n b (j + 2)
          * (-(1 + jj) * (3 + 2 * jj) * ((n : ℚ) - jj) / jj / (2 * jj - 1) / ((n : ℚ) + jj + 1))
        + W n b (j + 3) * ((3 + 2 * jj) * ((n : ℚ) - 2 * b) / jj / ((n : ℚ) + jj + 1))

/-- Shared `expm1` primitive (`autograd.numpy.expm1`): `expm1 x = exp x - 1`,
expressed through the abstract exponential `rexp`. -/
def expm1 (rexp : ℚ → ℚ) (x : ℚ) : ℚ := rexp x - 1

/-- Data of a `ConstantTruncatedSizeHistory` instance (`size_history.py`):
maximal lineage count `n_max`, duration `tau` (where `none` models
`float('inf')`) and the constant population size `N`. -/
structure ConstantTruncatedSizeHistory where
  n_max : ℕ
  tau : Option ℚ
  N : ℚ
deriving DecidableEq

/-- Constructor of `ConstantTruncatedSizeHistory`: the source raises
(`"N must be positive"`) when `N <= 0`, modelled by `none`. -/
def ConstantTruncatedSizeHistory.make (n_max : ℕ) (tau : Option ℚ) (N : ℚ) :
    Option ConstantTruncatedSizeHistory :=
  if N ≤ 0 then none else some ⟨n_max, tau, N⟩

/-- The `etjj` entry at lineage count `j` for a constant history, following the
source computation: `denom = binom(j,2)/N`; if `tau` is infinite the entry is
`1/denom`, otherwise it is `-expm1(-denom*tau)/denom`.  The source builds the
vector of these values for `j = 2..n_max`. -/
def ConstantTruncatedSizeHistory.etjj (rexp : ℚ → ℚ) (c : ConstantTruncatedSizeHistory)
    (j : ℕ) : ℚ :=
  let denom : ℚ := (j.choose 2 : ℚ) / c.N
  match c.tau with
  | none => 1 / denom
  | some t =>
      let scaled_time := denom * t
      let num := -(expm1 rexp (-scaled_time))
      num / denom

/-- The `scaled_time` of a constant history: `tau / N` (infinite when `tau`
is infinite, as in the float arithmetic of the source). -/
def ConstantTruncatedSizeHistory.scaled_time (c : ConstantTruncatedSizeHistory) : Option ℚ :=
  c.tau.map (· / c.N)

/-- Finite value of `tau` (junk `0` in the infinite case; only used on the
finite-`tau` code paths). -/
def tauQ (c : ConstantTruncatedSizeHistory) : ℚ := c.tau.getD 0

/-- Entry `b` of the vector `bv` computed in `TruncatedSizeHistory.sfs`:
`bv[b-1] = sum_{i=2..n_max} etjj[i] * W(n_max, b, i)` (the source stores
`W(n_max, j, i)` at `ww[i-2, j-1]` and contracts it against `etjj`). -/
def bv (rexp : ℚ → ℚ) (c : ConstantTruncatedSizeHistory) (b : ℕ) : ℚ :=
  ∑ i ∈ Finset.Icc 2 c.n_max, c.etjj rexp i * W c.n_max b i

/-- The monomorphic entry `sfs[(n_max, n_max)]` computed by
`TruncatedSizeHistory._before_tmrca`: `tau` minus the branch-length mass of the
polymorphic entries. -/
def before_tmrca (rexp : ℚ → ℚ) (c : ConstantTruncatedSizeHistory) : ℚ :=
  tauQ c - ∑ b ∈ Finset.Ico 1 c.n_max, bv rexp c b * b / (c.n_max : ℚ)

/-- The site-frequency dictionary `TruncatedSizeHistory.sfs` of the source as a
total function on key pairs `(b, n)` (absent keys map to `0`): for `n_max = 1`
the dictionary is `{(1,1): tau}`; otherwise the keys `(b, n_max)` with
`1 <= b <= n_max - 1` hold `bv`, and `(n_max, n_max)` holds the
`_before_tmrca` entry. -/
def ConstantTruncatedSizeHistory.sfs (rexp : ℚ → ℚ) (c : ConstantTruncatedSizeHistory) :
    ℕ × ℕ → ℚ := fun bn =>
  if c.n_max = 1 then (if bn = (1, 1) then tauQ c else 0)
  else if bn.2 = c.n_max ∧ 1 ≤ bn.1 ∧ bn.1 ≤ c.n_max - 1 then bv rexp c bn.1
  else if bn = (c.n_max, c.n_max) then before_tmrca rexp c
  else 0

/-- Multi-dimensional numeric array (a numpy `ndarray`): a shape together with
the entries as a function of index lists; entries are meaningful at index lists
pointwise below the shape. -/
structure NDArray where
  shape : List ℕ
  data : List ℕ → ℚ

/-- Eigensystem data `(P, d, P^{-1})` as returned by `moran_eigensystem(n)` in
`moran_model.py`; matrices are functions of (row, column).  The source obtains
these via `np.linalg.eig` of the tri-diagonal Moran rate matrix, an external
numeric routine; the theorems below are parametric in these data. -/
structure EigSys where
  P : ℕ → ℕ → ℚ
  d : ℕ → ℚ
  Pinv : ℕ → ℕ → ℚ

/-- Entry `(a, b)` of the kernel `dot(P, dot(diag(exp(t*d)), Pinv))` built in
`moran_action` for the `(n+1) x (n+1)` eigensystem. -/
def moranKernel (rexp : ℚ → ℚ) (es : EigSys) (t : ℚ) (n : ℕ) (a b : ℕ) : ℚ :=
  ∑ j ∈ Finset.range (n + 1), es.P a j * rexp (t * es.d j) * es.Pinv j b

/-- Embedding of `tensordot(v, K, axes=([axis],[1]))`: the contracted axis of
`v` is removed and the row index of `K` is appended as the final axis. -/
def tensordotAxis (v : NDArray) (K : ℕ → ℕ → ℚ) (axis n : ℕ) : NDArray where
  shape := v.shape.eraseIdx axis ++ [n + 1]
  data := fun idx =>
    ∑ j ∈ Finset.range (n + 1),
      v.data (idx.dropLast.insertIdx axis j) * K (idx.getLastD 0) j

/-- Embedding of `np.transpose(ret, axes = range(axis) + [len-1] + range(axis,
len-1))`: the final axis is moved to position `axis`, other axes keep their
relative order. -/
def transposeLastTo (w : NDArray) (axis : ℕ) : NDArray where
  shape := w.shape.dropLast.insertIdx axis (w.shape.getLastD 0)
  data := fun idx => w.data (idx.eraseIdx axis ++ [idx.getD axis 0])

/-- Embedding of `moran_action(t, v, axis)` of `moran_model.py`, parametric in
the eigensystem table `ES` (the memoized `moran_eigensystem`): the lineage
count is derived from the input as `n = v.shape[axis] - 1`, the kernel
`P.diag(exp(t*d)).Pinv` is contracted along `axis` via `tensordot` and the
contracted axis is transposed back into place; the final `assert ret.shape ==
v.shape` (and an out-of-range `axis`) is modelled by `none`. -/
def moran_action (ES : ℕ → EigSys) (rexp : ℚ → ℚ) (t : ℚ) (v : NDArray) (axis : ℕ) :
    Option NDArray :=
  if axis < v.shape.length then
    let n := v.shape.getD axis 0 - 1
    let K := moranKernel rexp (ES n) t n
    let ret := transposeLastTo (tensordotAxis v K axis n) axis
    if ret.shape = v.shape then some ret else none
  else none

/-- Embedding of `TruncatedSizeHistory.transition_prob(v, axis)` for a constant
history: the input is returned unchanged when `scaled_time == 0.0`, otherwise
`moran_action(scaled_time, v, axis)` is applied.  An infinite `scaled_time`
would push the float infinity through `exp`, which lies outside the rational
idealization; it is modelled as a failure and exercised by no claim. -/
def transition_prob (ES : ℕ → EigSys) (rexp : ℚ → ℚ) (c : ConstantTruncatedSizeHistory)
    (v : NDArray) (axis : ℕ) : Option NDArray :=
  match c.scaled_time with
  | none => none
  | some st => if st = 0 then some v else moran_action ES rexp st v axis

/-- Hypergeometric kernel for one parent inside `der_in_admixture_node`:
entry `d` is `comb(der_in_parent, d) * comb(anc_in_parent, n_from_parent - d)
/ comb(n_node, n_from_parent)` for `d = 0..n_from_parent` (the numpy vector
holds exactly those entries; beyond it the kernel is `0`), where
`anc_in_parent = n_node - der_in_parent`. -/
def hyperVec (n_node n_from_parent der_in_parent : ℕ) : ℕ → ℚ := fun d =>
  if d ≤ n_from_parent then
    (der_in_parent.choose d : ℚ) * ((n_node - der_in_parent).choose (n_from_parent - d) : ℚ)
      / (n_node.choose n_from_parent : ℚ)
  else 0

/-- Entry `k` of the discrete convolution of two kernels
(`scipy.signal.fftconvolve`, idealized as the exact convolution). -/
def convEntry (f g : ℕ → ℚ) (k : ℕ) : ℚ :=
  ∑ i ∈ Finset.range (k + 1), f i * g (k - i)

/-- Embedding of `der_in_admixture_node(n_from_1, n_from_2, der_in_1,
der_in_2)` of `demography.py`: the convolution of the two per-parent
hypergeometric kernels over `n_node = n_from_1 + n_from_2`; entry `child_der`
is the probability that the admixture node carries `child_der` derived
alleles. -/
def der_in_admixture_node (n_from_1 n_from_2 der_in_1 der_in_2 : ℕ) : ℕ → ℚ :=
  convEntry (hyperVec (n_from_1 + n_from_2) n_from_1 der_in_1)
    (hyperVec (n_from_1 + n_from_2) n_from_2 der_in_2)

/-- Entry `(child_der, par1_der, par2_der)` of the admixture-probability
tensor built by `Demography.admixture_prob`: the binomial mixture, over the
number `n_from_1` of lineages inherited from parent 1, of the inner
hypergeometric convolution. -/
def admixture_prob_entry (n_node : ℕ) (prob1 prob2 : ℚ)
    (child_der par1_der par2_der : ℕ) : ℚ :=
  ∑ n_from_1 ∈ Finset.range (n_node + 1),
    (n_node.choose n_from_1 : ℚ) * prob1 ^ n_from_1 * prob2 ^ (n_node - n_from_1)
      * der_in_admixture_node n_from_1 (n_node - n_from_1) par1_der par2_der child_der

/-- Event identifiers of the event tree: the synthetic singleton event of a
leaf population, or the raw event at a given position of the graph's `events`
list (Python keys `eventDict` by the event tuples themselves; list positions
identify them uniquely here). -/
inductive EvId where
  | leaf (p : ℕ)
  | ev (i : ℕ)
deriving DecidableEq

/-- Attributes stored for each event in `eventDict`: the `subpops` frontier,
the produced `parent_pops` and the consumed `child_pops` with the events that
produced them. -/
structure EvInfo where
  subpops : List ℕ
  parent_pops : List ℕ
  child_pops : List (ℕ × EvId)
deriving DecidableEq

/-- Builder state threaded through `Demography.eventTree`: ownership of the
live populations (`currEvents`), the event dictionary (`eventDict`) and the
accumulated tree edges (`eventEdgeList`). -/
structure BState where
  curr : List (ℕ × EvId)
  infos : List (EvId × EvInfo)
  edges : List (EvId × EvId)
deriving DecidableEq

/-- Generic dictionary lookup (Python `dict[k]`); `none` models a `KeyError`.
Dictionaries are association lists whose keys are unique by construction. -/
def lookupA {α β : Type} [DecidableEq α] (k : α) : List (α × β) → Option β
  | [] => none
  | (a, b) :: t => if a = k then some b else lookupA k t

/-- Processing of one raw event inside `Demography.eventTree`, following the
source: recover the parent and child population sets of the edge pair, look up
the owning events of the consumed children (`KeyError` if one is not live),
assert `len(e) == 2`, the `3`-role count and `len(child_events) in (1,2)`,
build the new frontier `subpops` (union of the child events' frontiers minus
the consumed children plus the produced parents), reassign ownership of the
new frontier, delete the consumed children, and record the new event node and
its tree edges. -/
def step (st : BState) (i : ℕ) (e : List (ℕ × ℕ)) : Option BState :=
  let parent_pops := (e.map Prod.fst).dedup
  let child_pops := (e.map Prod.snd).dedup
  match child_pops.mapM (fun c => (lookupA c st.curr).map fun ev => (c, ev)) with
  | none => none
  | some cpairs =>
    let child_events := (cpairs.map Prod.snd).dedup
    if e.length = 2 ∧ parent_pops.length + child_pops.length = 3
        ∧ (child_events.length = 1 ∨ child_events.length = 2) then
      match child_events.mapM (fun c => lookupA c st.infos) with
      | none => none
      | some cinfos =>
        let sub_pops := (((cinfos.map EvInfo.subpops).flatten.dedup.filter
            fun q => q ∉ child_pops) ++ parent_pops).dedup
        let newId := EvId.ev i
        some ⟨((sub_pops.map fun q => (q, newId))
              ++ st.curr.filter fun q => q.1 ∉ sub_pops).filter
                fun q => q.1 ∉ child_pops,
          (newId, ⟨sub_pops, parent_pops, cpairs⟩) :: st.infos,
          st.edges ++ child_events.map fun c => (newId, c)⟩
    else none

/-- The state produced by a successful `step`, given the resolved child-event
pairs and the child events' dictionary entries. -/
def stepResult (st : BState) (i : ℕ) (e : List (ℕ × ℕ)) (cpairs : List (ℕ × EvId))
    (cinfos : List EvInfo) : BState :=
  let parent_pops := (e.map Prod.fst).dedup
  let child_pops := (e.map Prod.snd).dedup
  let child_events := (cpairs.map Prod.snd).dedup
  let sub_pops := (((cinfos.map EvInfo.subpops).flatten.dedup.filter
      fun q => q ∉ child_pops) ++ parent_pops).dedup
  let newId := EvId.ev i
  ⟨((sub_pops.map fun q => (q, newId))
      ++ st.curr.filter fun q => q.1 ∉ sub_pops).filter fun q => q.1 ∉ child_pops,
    (newId, ⟨sub_pops, parent_pops, cpairs⟩) :: st.infos,
    st.edges ++ child_events.map fun c => (newId, c)⟩

/-- Folding `step` over the ordered raw-event list. -/
def processFrom (st : BState) : ℕ → List (List (ℕ × ℕ)) → Option BState
  | _, [] => some st
  | i, e :: rest => (step st i e).bind fun st' => processFrom st' (i + 1) rest

/-- Initial builder state: one singleton event per leaf, owning that leaf. -/
def initState (leaves : List ℕ) : BState :=
  ⟨leaves.map fun l => (l, EvId.leaf l),
   leaves.map fun l => (EvId.leaf l, ⟨[l], [l], []⟩),
   []⟩

/-- Embedding of `Demography.eventTree`: process all raw events, then
`assert len(currEvents) == 1` and return the finished state together with the
root event (the owner of the single remaining live population). -/
def eventTree (leaves : List ℕ) (events : List (List (ℕ × ℕ))) :
    Option (BState × EvId) :=
  (processFrom (initState leaves) 0 events).bind fun st =>
    match st.curr with
    | [(_, r)] => some (st, r)
    | _ => none

/-- Root events of the finished tree: events of the dictionary that are the
target of no tree edge (in-degree zero in the event DiGraph). -/
def treeRoots (st : BState) : List EvId :=
  (st.infos.map Prod.fst).filter fun ev => ev ∉ st.edges.map Prod.snd

/-- Well-formedness of the raw event list per section 4.3 of the spec,
relative to the running set of live populations: each event is a pair of
edges whose distinct parent and child roles count `3`, consumes only live
populations and produces only fresh ones; at the end exactly one population
is live. -/
def wfEvents (live : List ℕ) : List (List (ℕ × ℕ)) → Bool
  | [] => decide (live.length = 1)
  | e :: rest =>
    decide (e.length = 2)
      && decide ((e.map Prod.fst).dedup.length + (e.map Prod.snd).dedup.length = 3)
      && decide (∀ c ∈ (e.map Prod.snd).dedup, c ∈ live)
      && decide (∀ p ∈ (e.map Prod.fst).dedup, p ∉ live)
      && wfEvents ((e.map Prod.fst).dedup
          ++ live.filter fun q => q ∉ (e.map Prod.snd).dedup) rest

/-- Observation data of one population node of the demographic graph:
`lineages` and the mutable observation state, an optional pair
`(derived, ancestral)` (absent until first set).  The values are integers
because `log_likelihood_prf` writes `ancestral = n_lineages - b`, which Python
evaluates in ℤ. -/
structure LeafData where
  lineages : ℕ
  state : Option (ℤ × ℤ)
deriving DecidableEq

/-- Demographic graph restricted to the attributes the verified routines
touch: the node-data dictionary and the list of leaf identifiers. -/
structure Demography where
  gdata : List (ℕ × LeafData)
  leaves : List ℕ
deriving DecidableEq

/-- Dictionary lookup in the node-data association list (`node_data[k]`);
`none` models a `KeyError`. -/
def alookup (k : ℕ) : List (ℕ × LeafData) → Option LeafData
  | [] => none
  | (a, b) :: t => if a = k then some b else alookup k t

/-- Write a node's observation state (`ndn.update(state[node])`), leaving
`lineages` and every other node untouched. -/
def setState (gd : List (ℕ × LeafData)) (k : ℕ) (s : ℤ × ℤ) : List (ℕ × LeafData) :=
  gd.map (fun p => (p.1, if p.1 = k then ⟨p.2.lineages, some s⟩ else p.2))

/-- The two exceptions `Demography.update_state` can raise: a missing node
(`KeyError` from `nd[node]`) and the `derived + ancestral != lineages`
consistency failure. -/
inductive UpdateErr where
  | keyError (node : ℕ)
  | stateError (node : ℕ)
deriving DecidableEq

/-- Embedding of `Demography.update_state`: the entries of the state
dictionary are processed in order; for each node the new `derived`/`ancestral`
pair is first written into the graph and only afterwards validated against
`lineages`, raising — with the graph already partially mutated — on violation.
The error value carries the graph as it stands when the exception is raised. -/
def update_state (g : Demography) :
    List (ℕ × (ℤ × ℤ)) → Except (UpdateErr × Demography) Demography
  | [] => .ok g
  | (node, s) :: rest =>
    match alookup node g.gdata with
    | none => .error (.keyError node, g)
    | some ld =>
      let g' : Demography := ⟨setState g.gdata node s, g.leaves⟩
      if (ld.lineages : ℤ) = s.1 + s.2 then update_state g' rest
      else .error (.stateError node, g')

/-- Sequential application of the state writes alone (no validation): the
graph contents after the prefix of `update_state` writes that succeeded. -/
def writeAll (gd : List (ℕ × LeafData)) : List (ℕ × (ℤ × ℤ)) → List (ℕ × LeafData)
  | [] => gd
  | (node, s) :: rest => writeAll (setState gd node s) rest

/-- The `try` block at the top of `normalizing_constant`: reads every leaf's
current `derived`/`ancestral`; a missing node or missing attribute raises and
is caught as `prev_state = None`. -/
def captureState (g : Demography) : Option (List (ℕ × (ℤ × ℤ))) :=
  g.leaves.mapM (fun v =>
    (alookup v g.gdata).bind (fun ld => ld.state.map (fun s => (v, s))))

/-- The all-ancestral synthetic state dictionary built by
`normalizing_constant` (`derived = 0`, `ancestral = lineages`); reading a
missing leaf raises uncaught (`none`). -/
def allAncestralState (g : Demography) : Option (List (ℕ × (ℤ × ℤ))) :=
  g.leaves.mapM (fun v =>
    (alookup v g.gdata).map (fun ld => (v, ((0 : ℤ), (ld.lineages : ℤ)))))

/-- The all-derived synthetic state dictionary built by
`normalizing_constant` (`derived = lineages`, `ancestral = 0`). -/
def allDerivedState (g : Demography) : Option (List (ℕ × (ℤ × ℤ))) :=
  g.leaves.mapM (fun v =>
    (alookup v g.gdata).map (fun ld => (v, ((ld.lineages : ℤ), (0 : ℤ)))))

/-- Failure modes of `normalizing_constant`: an uncaught `KeyError` while
building a synthetic state, an exception propagated out of `update_state`, and
the final `assert ret > 0.0`. -/
inductive NCErr where
  | keyErr
  | raised (e : UpdateErr × Demography)
  | assertErr
deriving DecidableEq

/-- Embedding of `normalizing_constant(demography)` of `demography.py`.
Modelled from the spec: the SumProduct engine (`sum_product.py`, absent from
the sources) contributes exactly two scalars — the branch sum
`Σ_events Σ_newpop ((1 - zeroth-vector(partial_likelihood_bottom)) *
truncated_sfs).sum()` evaluated under the all-ancestral state, and
`sp.p(normalized=False)` evaluated under the all-derived state; they enter as
the abstract parameters `bsum` and `pAllDerived`.  Everything else follows the
source: capture the previous observation state (`None` if unset), set all
leaves ancestral, accumulate `bsum`, set all leaves derived, subtract
`pAllDerived`, restore the captured state if any, then `assert ret > 0.0` and
return both the value and the mutated graph. -/
def normalizing_constant (g : Demography) (bsum pAllDerived : ℚ) :
    Except NCErr (ℚ × Demography) :=
  let prev := captureState g
  match allAncestralState g with
  | none => .error .keyErr
  | some st0 =>
    match update_state g st0 with
    | .error e => .error (.raised e)
    | .ok g1 =>
      match allDerivedState g1 with
      | none => .error .keyErr
      | some st1 =>
        match update_state g1 st1 with
        | .error e => .error (.raised e)
        | .ok g2 =>
          let ret := bsum - pAllDerived
          match (match prev with
                 | some pst => update_state g2 pst
                 | none => .ok g2) with
          | .error e => .error (.raised e)
          | .ok g3 => if 0 < ret then .ok (ret, g3) else .error .assertErr

/-- Failure modes of `log_likelihood_prf`: an uncaught `KeyError` while
building a configuration state, an exception propagated out of
`update_state`, and the final `assert ret < 0.0`. -/
inductive LLErr where
  | keyErr
  | raised (e : UpdateErr × Demography)
  | assertErr
deriving DecidableEq

/-- The per-configuration state dictionary built inside `log_likelihood_prf`:
`zip(leaves, states)` with `derived = b` and
`ancestral = n_lineages_at_node - b` (the lineage count read from the current
graph, the subtraction taken in ℤ as in Python); a missing node raises. -/
def configState (g : Demography) (states : List ℕ) : Option (List (ℕ × (ℤ × ℤ))) :=
  (g.leaves.zip states).mapM fun q =>
    (alookup q.1 g.gdata).map fun ld => (q.1, ((q.2 : ℤ), (ld.lineages : ℤ) - (q.2 : ℤ)))

/-- Loop of `log_likelihood_prf` over the sorted configuration/weight pairs,
followed by the final `assert ret < 0.0`: each iteration sets the
configuration's leaf states via `update_state` and accumulates
`log(p * theta/2) * weight - gammaln(weight + 1)`, where `gammaln(w+1)` at the
integer weight equals `log(w!)`. -/
def llp_loop (rlog : ℚ → ℚ) (p : Demography → ℚ) (theta : ℚ) :
    Demography → ℚ → List (List ℕ × ℕ) → Except LLErr ℚ
  | _, acc, [] => if acc < 0 then .ok acc else .error .assertErr
  | g, acc, (states, w) :: rest =>
    match configState g states with
    | none => .error .keyErr
    | some st =>
      match update_state g st with
      | .error e => .error (.raised e)
      | .ok g1 =>
        llp_loop rlog p theta g1
          (acc + rlog (p g1 * theta / 2) * w - rlog ((w.factorial : ℚ))) rest

/-- Embedding of `Demography.log_likelihood_prf(theta, sfs)`.  Modelled from
the spec where the sources are missing: `sp.p(normalized=False)` (the
SumProduct engine of the absent `sum_product.py`) is the abstract parameter
`p`, a function of the graph with its current observation state, and the
cached `totalSfsSum` (the normalizing constant) is the abstract parameter
`totalSfsSum`.  The logarithm is the abstract `rlog`; the stored leaf order
stands for Python's `sorted(leaves)` and the association list for
`sorted(sfs.items())`. -/
def log_likelihood_prf (g : Demography) (totalSfsSum : ℚ) (rlog : ℚ → ℚ)
    (p : Demography → ℚ) (theta : ℚ) (sfs : List (List ℕ × ℕ)) : Except LLErr ℚ :=
  llp_loop rlog p theta g (-totalSfsSum * theta / 2) sfs

/-- The graph with every leaf's observation state set from the configuration:
leaf `i` gets `derived = states[i]`, `ancestral = lineages - states[i]`. -/
def setConfig (g : Demography) (states : List ℕ) : Demography :=
  ⟨writeAll g.gdata ((g.leaves.zip states).map fun q =>
      (q.1, ((q.2 : ℤ),
        ((((alookup q.1 g.gdata).getD ⟨0, none⟩).lineages : ℤ) - (q.2 : ℤ))))),
   g.leaves⟩

/-- One observation-state write as seen by a fixed node `k`: the fold of the
state dictionary entries over that node's data (matching entries overwrite the
state, keeping `lineages`). -/
def applyWrites (k : ℕ) (ld : LeafData) (st : List (ℕ × (ℤ × ℤ))) : LeafData :=
  st.foldl (fun ld q => if k = q.1 then ⟨ld.lineages, some q.2⟩ else ld) ld

/-- Concrete one-leaf graph (2 lineages, observation state `(1, 1)`) used by
the C1 and C8 witnesses. -/
def demoOneLeafSet : Demography := ⟨[(1, ⟨2, some (1, 1)⟩)], [1]⟩

/-- Concrete one-leaf graph with unset observation state, for the C8
counterexample. -/
def demoOneLeafUnset : Demography := ⟨[(1, ⟨2, none⟩)], [1]⟩

/-- Concrete eigensystem table for the C9 scenario: identity matrices with zero
eigenvalues at every `n` (for `n = 1` this is an exact eigendecomposition of
the Moran rate matrix, which is the zero matrix). -/
def idES : ℕ → EigSys := fun _ =>
  ⟨fun a b => if a = b then 1 else 0, fun _ => 0, fun a b => if a = b then 1 else 0⟩

/-- Concrete length-2 input vector for the C9 counterexample. -/
def vec2 : NDArray := ⟨[2], fun _ => 1⟩

/-- Builder invariant for `Demography.eventTree`, relating the state to the
set of live populations and to the bound on raw-event indices processed so
far: live populations are exactly the `currEvents` keys; the frontier stored
for each owning event is exactly the set of populations it owns; event
identifiers are unique and index-bounded; and an event has an incoming tree
edge exactly when it no longer owns a population. -/
structure Inv (st : BState) (live : List ℕ) (bound : ℕ) : Prop where
  live_nodup : live.Nodup
  keys_nodup : (st.curr.map Prod.fst).Nodup
  keys_live : ∀ p : ℕ, p ∈ st.curr.map Prod.fst ↔ p ∈ live
  owner_subpops : ∀ ev ∈ st.curr.map Prod.snd, ∃ inf, lookupA ev st.infos = some inf ∧
    inf.subpops.Nodup ∧ ∀ q : ℕ, q ∈ inf.subpops ↔ lookupA q st.curr = some ev
  infos_nodup : (st.infos.map Prod.fst).Nodup
  infos_bound : ∀ ev ∈ st.infos.map Prod.fst,
    (∃ p, ev = EvId.leaf p) ∨ ∃ j, ev = EvId.ev j ∧ j < bound
  edges_target : ∀ ev ∈ st.infos.map Prod.fst,
    (ev ∈ st.edges.map Prod.snd ↔ ev ∉ st.curr.map Prod.snd)
  edges_in_infos : ∀ q ∈ st.edges, q.1 ∈ st.infos.map Prod.fst ∧ q.2 ∈ st.infos.map Prod.fst

/-- C4: for every Constant-size truncated history with finite `tau` and
`n_max = n`, the site-frequency dictionary satisfies branch-length
conservation: `sum_{j=1..n-1} sfs[(j,n)] * j / n + sfs[(n,n)] = tau`. -/
theorem C4_branch_length_conservation (rexp : ℚ → ℚ) (c : ConstantTruncatedSizeHistory)
    (h1 : 1 ≤ c.n_max) (h2 : c.tau ≠ none) :
    (∑ j ∈ Finset.Ico 1 c.n_max, c.sfs rexp (j, c.n_max) * j / (c.n_max : ℚ))
      + c.sfs rexp (c.n_max, c.n_max) = tauQ c := by
  clear h2
  rcases eq_or_lt_of_le h1 with h1' | h1'
  · simp [ConstantTruncatedSizeHistory.sfs, ← h1']
  · have hne : c.n_max ≠ 1 := by omega
    have hsum : ∀ j ∈ Finset.Ico 1 c.n_max,
        c.sfs rexp (j, c.n_max) * j / (c.n_max : ℚ) = bv rexp c j * j / (c.n_max : ℚ) := by
      intro j hj
      rw [Finset.mem_Ico] at hj
      have : c.sfs rexp (j, c.n_max) = bv rexp c j := by
        unfold ConstantTruncatedSizeHistory.sfs
        rw [if_neg hne, if_pos ⟨rfl, hj.1, by omega⟩]
      rw [this]
    rw [Finset.sum_congr rfl hsum]
    have hmono : c.sfs rexp (c.n_max, c.n_max) = before_tmrca rexp c := by
      unfold ConstantTruncatedSizeHistory.sfs
      rw [if_neg hne, if_neg (by rintro ⟨-, -, h⟩; omega), if_pos rfl]
    rw [hmono, before_tmrca]
    ring

/-- Witness for C4 at the concrete history `n_max = 2`, `tau = 1`, `N = 1`. -/
theorem C4_witness :
    (∑ j ∈ Finset.Ico 1 (⟨2, some 1, 1⟩ : ConstantTruncatedSizeHistory).n_max,
        (⟨2, some 1, 1⟩ : ConstantTruncatedSizeHistory).sfs (fun _ => 0)
            (j, (⟨2, some 1, 1⟩ : ConstantTruncatedSizeHistory).n_max)
          * j / ((⟨2, some 1, 1⟩ : ConstantTruncatedSizeHistory).n_max : ℚ))
      + (⟨2, some 1, 1⟩ : ConstantTruncatedSizeHistory).sfs (fun _ => 0)
          ((⟨2, some 1, 1⟩ : ConstantTruncatedSizeHistory).n_max,
           (⟨2, some 1, 1⟩ : ConstantTruncatedSizeHistory).n_max)
      = tauQ ⟨2, some 1, 1⟩ :=
  C4_branch_length_conservation (fun _ => 0) ⟨2, some 1, 1⟩ (by decide) (by decide)

/-- Computation lemma: the `etjj` entry for a finite duration. -/
theorem etjj_some (rexp : ℚ → ℚ) (n_max : ℕ) (t N : ℚ) (j : ℕ) :
    ConstantTruncatedSizeHistory.etjj rexp ⟨n_max, some t, N⟩ j
      = -(rexp (-((j.choose 2 : ℚ) / N * t)) - 1) / ((j.choose 2 : ℚ) / N) := rfl

/-- Computation lemma: the `etjj` entry for an infinite duration. -/
theorem etjj_none (rexp : ℚ → ℚ) (n_max : ℕ) (N : ℚ) (j : ℕ) :
    ConstantTruncatedSizeHistory.etjj rexp ⟨n_max, none, N⟩ j
      = 1 / ((j.choose 2 : ℚ) / N) := rfl

/-- C5: for the Constant size-history variant, construction fails exactly when
`N <= 0`, and for every `j` with `2 <= j <= n_max` the `etjj` entry equals
`(1 - exp(-C(j,2)*tau/N)) * N / C(j,2)` for finite `tau` and `N / C(j,2)` for
infinite `tau`. -/
theorem C5_constant_etjj (rexp : ℚ → ℚ) (n_max : ℕ) (tau : Option ℚ) (N : ℚ) :
    (ConstantTruncatedSizeHistory.make n_max tau N = none ↔ N ≤ 0) ∧
    (∀ c, ConstantTruncatedSizeHistory.make n_max tau N = some c →
      ∀ j, 2 ≤ j → j ≤ n_max →
        (∀ t : ℚ, c.tau = some t →
          c.etjj rexp j = (1 - rexp (-((j.choose 2 : ℚ) * t / N))) * N / (j.choose 2 : ℚ)) ∧
        (c.tau = none → c.etjj rexp j = N / (j.choose 2 : ℚ))) := by
  constructor
  · unfold ConstantTruncatedSizeHistory.make
    split <;> simp_all
  · intro c hc j hj2 _
    rw [ConstantTruncatedSizeHistory.make] at hc
    by_cases hN : N ≤ 0
    · rw [if_pos hN] at hc
      exact absurd hc (by simp)
    · rw [if_neg hN] at hc
      injection hc with h
      subst h
      have hN0 : N ≠ 0 := fun h => hN (le_of_eq h)
      have hC : ((j.choose 2 : ℕ) : ℚ) ≠ 0 := by
        have : 0 < j.choose 2 := Nat.choose_pos hj2
        exact_mod_cast this.ne'
      constructor
      · intro t ht
        have ht' : tau = some t := ht
        subst ht'
        rw [etjj_some]
        have harg : -((j.choose 2 : ℚ) / N * t) = -((j.choose 2 : ℚ) * t / N) := by ring
        rw [harg]
        field_simp
      · intro ht
        have ht' : tau = none := ht
        subst ht'
        rw [etjj_none, one_div_div]

/-- Witness for C5 at `n_max = 3`, `tau` infinite, `N = 5`, `j = 2`. -/
theorem C5_witness :
    ConstantTruncatedSizeHistory.etjj (fun _ => 0) ⟨3, none, 5⟩ 2
      = 5 / ((Nat.choose 2 2 : ℕ) : ℚ) :=
  ((C5_constant_etjj (fun _ => 0) 3 none 5).2 ⟨3, none, 5⟩ (by decide) 2 (by decide)
    (by decide)).2 rfl

theorem alookup_setState (gd : List (ℕ × LeafData)) (m k : ℕ) (s : ℤ × ℤ) :
    alookup k (setState gd m s)
      = (alookup k gd).map (fun ld => if k = m then ⟨ld.lineages, some s⟩ else ld) := by
  induction gd with
  | nil => rfl
  | cons hd tl ih =>
    obtain ⟨a, b⟩ := hd
    by_cases hak : a = k
    · subst hak
      simp [setState, alookup]
    · simpa [setState, alookup, hak] using ih

theorem writeAll_append (gd : List (ℕ × LeafData)) (a b : List (ℕ × (ℤ × ℤ))) :
    writeAll gd (a ++ b) = writeAll (writeAll gd a) b := by
  induction a generalizing gd with
  | nil => rfl
  | cons hd tl ih => simpa [writeAll] using ih (setState gd hd.1 hd.2)

theorem writeAll_eq_map (gd : List (ℕ × LeafData)) (st : List (ℕ × (ℤ × ℤ))) :
    writeAll gd st = gd.map (fun p => (p.1, applyWrites p.1 p.2 st)) := by
  induction st generalizing gd with
  | nil => simp [writeAll, applyWrites]
  | cons hd tl ih =>
    obtain ⟨m, s⟩ := hd
    show writeAll (setState gd m s) tl = _
    rw [ih, setState, List.map_map]
    refine List.map_congr_left fun p _ => ?_
    by_cases h : p.1 = m <;> simp [Function.comp, h, applyWrites]

theorem applyWrites_lineages (k : ℕ) (ld : LeafData) (st : List (ℕ × (ℤ × ℤ))) :
    (applyWrites k ld st).lineages = ld.lineages := by
  induction st generalizing ld with
  | nil => rfl
  | cons hd tl ih =>
    show (applyWrites k (if k = hd.1 then ⟨ld.lineages, some hd.2⟩ else ld) tl).lineages = _
    by_cases h : k = hd.1
    · rw [if_pos h, ih]
    · rw [if_neg h, ih]

theorem applyWrites_not_mem (k : ℕ) (ld : LeafData) (st : List (ℕ × (ℤ × ℤ)))
    (h : ∀ q ∈ st, k ≠ q.1) : applyWrites k ld st = ld := by
  induction st generalizing ld with
  | nil => rfl
  | cons hd tl ih =>
    show applyWrites k (if k = hd.1 then ⟨ld.lineages, some hd.2⟩ else ld) tl = ld
    rw [if_neg (h hd (List.mem_cons_self hd tl))]
    exact ih ld fun q hq => h q (List.mem_cons_of_mem hd hq)

theorem applyWrites_fixed (k : ℕ) (lin : ℕ) (val : ℤ × ℤ) (st : List (ℕ × (ℤ × ℤ)))
    (h : ∀ q ∈ st, k = q.1 → q.2 = val) :
    applyWrites k ⟨lin, some val⟩ st = ⟨lin, some val⟩ := by
  induction st with
  | nil => rfl
  | cons hd tl ih =>
    show applyWrites k (if k = hd.1 then ⟨lin, some hd.2⟩ else ⟨lin, some val⟩) tl = _
    by_cases hk : k = hd.1
    · rw [if_pos hk, h hd (List.mem_cons_self hd tl) hk]
      exact ih fun q hq hkq => h q (List.mem_cons_of_mem hd hq) hkq
    · rw [if_neg hk]
      exact ih fun q hq hkq => h q (List.mem_cons_of_mem hd hq) hkq

theorem applyWrites_const_val (k : ℕ) (ld : LeafData) (val : ℤ × ℤ)
    (st : List (ℕ × (ℤ × ℤ))) (h : ∀ q ∈ st, k = q.1 → q.2 = val)
    (hmem : ∃ q ∈ st, k = q.1) :
    applyWrites k ld st = ⟨ld.lineages, some val⟩ := by
  induction st generalizing ld with
  | nil => obtain ⟨q, hq, -⟩ := hmem; exact absurd hq (List.not_mem_nil q)
  | cons hd tl ih =>
    show applyWrites k (if k = hd.1 then ⟨ld.lineages, some hd.2⟩ else ld) tl = _
    by_cases hk : k = hd.1
    · rw [if_pos hk, h hd (List.mem_cons_self hd tl) hk]
      exact applyWrites_fixed k ld.lineages val tl
        fun q hq hkq => h q (List.mem_cons_of_mem hd hq) hkq
    · rw [if_neg hk]
      obtain ⟨q, hq, hkq⟩ := hmem
      rcases List.mem_cons.mp hq with rfl | hq'
      · exact absurd hkq hk
      · exact ih ld (fun q hq hkq => h q (List.mem_cons_of_mem hd hq) hkq) ⟨q, hq', hkq⟩

theorem alookup_map_keyed (gd : List (ℕ × LeafData)) (k : ℕ) (F : ℕ → LeafData → LeafData) :
    alookup k (gd.map (fun p => (p.1, F p.1 p.2))) = (alookup k gd).map (F k) := by
  induction gd with
  | nil => rfl
  | cons hd tl ih =>
    by_cases h : hd.1 = k
    · subst h; simp [alookup]
    · simpa [alookup, h] using ih

theorem alookup_writeAll (gd : List (ℕ × LeafData)) (st : List (ℕ × (ℤ × ℤ))) (k : ℕ) :
    alookup k (writeAll gd st) = (alookup k gd).map (fun ld => applyWrites k ld st) := by
  rw [writeAll_eq_map]
  exact alookup_map_keyed gd k fun a ld => applyWrites a ld st

theorem alookup_of_mem_nodup (gd : List (ℕ × LeafData)) (k : ℕ) (ld : LeafData)
    (hkeys : (gd.map Prod.fst).Nodup) (hmem : (k, ld) ∈ gd) :
    alookup k gd = some ld := by
  induction gd with
  | nil => exact absurd hmem (List.not_mem_nil _)
  | cons hd tl ih =>
    rcases List.mem_cons.mp hmem with rfl | hmem'
    · simp [alookup]
    · have hne : hd.1 ≠ k := by
        intro hk
        have : k ∈ tl.map Prod.fst := List.mem_map.mpr ⟨(k, ld), hmem', rfl⟩
        rw [List.map_cons, List.nodup_cons, hk] at hkeys
        exact hkeys.1 this
      simpa [alookup, hne] using ih (List.nodup_cons.mp (by simpa using hkeys)).2 hmem'

theorem list_map_eq_self {α : Type} (l : List α) (f : α → α) (h : ∀ x ∈ l, f x = x) :
    l.map f = l := by
  induction l with
  | nil => rfl
  | cons hd tl ih =>
    rw [List.map_cons, h hd (List.mem_cons_self hd tl),
      ih fun x hx => h x (List.mem_cons_of_mem hd hx)]

theorem mapM_eq_some_map {α β : Type} (l : List α) (f : α → Option β) (gf : α → β)
    (h : ∀ v ∈ l, f v = some (gf v)) : l.mapM f = some (l.map gf) := by
  induction l with
  | nil => rfl
  | cons hd tl ih =>
    rw [List.mapM_cons, h hd (List.mem_cons_self hd tl),
      ih fun v hv => h v (List.mem_cons_of_mem hd hv)]
    rfl

theorem update_state_ok (gd : List (ℕ × LeafData)) (lv : List ℕ)
    (st : List (ℕ × (ℤ × ℤ)))
    (h : ∀ q ∈ st, ∃ ld, alookup q.1 gd = some ld ∧ (ld.lineages : ℤ) = q.2.1 + q.2.2) :
    update_state ⟨gd, lv⟩ st = .ok ⟨writeAll gd st, lv⟩ := by
  induction st generalizing gd with
  | nil => rfl
  | cons hd tl ih =>
    obtain ⟨ld, hld, hlin⟩ := h hd (List.mem_cons_self hd tl)
    show (match alookup hd.1 gd with
      | none => Except.error (UpdateErr.keyError hd.1, (⟨gd, lv⟩ : Demography))
      | some ld =>
        if (ld.lineages : ℤ) = hd.2.1 + hd.2.2
        then update_state ⟨setState gd hd.1 hd.2, lv⟩ tl
        else .error (.stateError hd.1, ⟨setState gd hd.1 hd.2, lv⟩)) = _
    rw [hld]
    simp only [if_pos hlin]
    rw [ih]
    · rfl
    · intro q hq
      obtain ⟨ld', hld', hlin'⟩ := h q (List.mem_cons_of_mem hd hq)
      refine ⟨if q.1 = hd.1 then ⟨ld'.lineages, some hd.2⟩ else ld', ?_, ?_⟩
      · rw [alookup_setState, hld']
        by_cases hq1 : q.1 = hd.1 <;> simp [hq1]
      · by_cases hq1 : q.1 = hd.1 <;> simp [hq1, hlin']

/-- C10: `update_state` is not atomic on error: before validating a node it
writes that node's new `derived`/`ancestral` values into the graph, so when
validation fails (`derived + ancestral != lineages`) the exception carries the
failing node together with a graph in which every earlier node — and the
failing node itself — already holds the new values, while the remaining
entries are unprocessed. -/
theorem C10_update_state_not_atomic (g : Demography) (pre : List (ℕ × (ℤ × ℤ)))
    (node : ℕ) (d a : ℤ) (post : List (ℕ × (ℤ × ℤ)))
    (hpre : ∀ q ∈ pre, ∃ ld, alookup q.1 g.gdata = some ld ∧
      (ld.lineages : ℤ) = q.2.1 + q.2.2)
    (hnode : ∃ ld, alookup node (writeAll g.gdata pre) = some ld ∧
      (ld.lineages : ℤ) ≠ d + a) :
    update_state g (pre ++ (node, (d, a)) :: post)
      = .error (.stateError node,
          ⟨writeAll g.gdata (pre ++ [(node, (d, a))]), g.leaves⟩) := by
  induction pre generalizing g with
  | nil =>
    obtain ⟨ld, hld, hlin⟩ := hnode
    show (match alookup node g.gdata with
      | none => Except.error (UpdateErr.keyError node, g)
      | some ld =>
        if (ld.lineages : ℤ) = d + a
        then update_state ⟨setState g.gdata node (d, a), g.leaves⟩ post
        else .error (.stateError node, ⟨setState g.gdata node (d, a), g.leaves⟩)) = _
    rw [show alookup node g.gdata = some ld from hld]
    simp only [if_neg hlin]
    rfl
  | cons hd tl ih =>
    obtain ⟨ld, hld, hlin⟩ := hpre hd (List.mem_cons_self hd tl)
    show (match alookup hd.1 g.gdata with
      | none => Except.error (UpdateErr.keyError hd.1, g)
      | some ld =>
        if (ld.lineages : ℤ) = hd.2.1 + hd.2.2
        then update_state ⟨setState g.gdata hd.1 hd.2, g.leaves⟩
          (tl ++ (node, (d, a)) :: post)
        else .error (.stateError hd.1, ⟨setState g.gdata hd.1 hd.2, g.leaves⟩)) = _
    rw [hld]
    simp only [if_pos hlin]
    have := ih (g := ⟨setState g.gdata hd.1 hd.2, g.leaves⟩)
      (fun q hq => ?_) (by simpa [writeAll] using hnode)
    · simpa [writeAll] using this
    · obtain ⟨ld', hld', hlin'⟩ := hpre q (List.mem_cons_of_mem hd hq)
      refine ⟨if q.1 = hd.1 then ⟨ld'.lineages, some hd.2⟩ else ld', ?_, ?_⟩
      · rw [alookup_setState, hld']
        by_cases hq1 : q.1 = hd.1 <;> simp [hq1]
      · by_cases hq1 : q.1 = hd.1 <;> simp [hq1, hlin']

/-- Witness for C10: two nodes with 2 lineages each; the first entry is
consistent, the second (`derived = 5, ancestral = 0`) is not; the error names
node 2 and carries the graph with both writes applied and node 2 partially
mutated. -/
theorem C10_witness :
    update_state ⟨[(1, ⟨2, none⟩), (2, ⟨2, none⟩)], [1, 2]⟩
        ([(1, (1, 1))] ++ (2, (5, 0)) :: [])
      = .error (.stateError 2,
          ⟨writeAll [(1, ⟨2, none⟩), (2, ⟨2, none⟩)] ([(1, (1, 1))] ++ [(2, (5, 0))]),
           [1, 2]⟩) :=
  C10_update_state_not_atomic ⟨[(1, ⟨2, none⟩), (2, ⟨2, none⟩)], [1, 2]⟩
    [(1, (1, 1))] 2 5 0 []
    (fun q hq => by
      simp only [List.mem_singleton] at hq
      subst hq
      exact ⟨⟨2, none⟩, rfl, by decide⟩)
    ⟨⟨2, none⟩, rfl, by decide⟩

theorem applyWrites_append (k : ℕ) (ld : LeafData) (a b : List (ℕ × (ℤ × ℤ))) :
    applyWrites k ld (a ++ b) = applyWrites k (applyWrites k ld a) b :=
  List.foldl_append _ _ a b

/-- Key restoration lemma: writing any lv-keyed prefix and then writing every
leaf's recorded state back leaves the node-data dictionary unchanged. -/
theorem writeAll_restore (gd : List (ℕ × LeafData)) (lv : List ℕ) (sF : ℕ → ℤ × ℤ)
    (pre : List (ℕ × (ℤ × ℤ)))
    (hkeys : (gd.map Prod.fst).Nodup)
    (hpre : ∀ q ∈ pre, q.1 ∈ lv)
    (hstate : ∀ v ∈ lv, ∃ ld, alookup v gd = some ld ∧ ld.state = some (sF v)) :
    writeAll gd (pre ++ lv.map fun v => (v, sF v)) = gd := by
  rw [writeAll_eq_map]
  refine list_map_eq_self _ _ ?_
  rintro ⟨k, ld0⟩ hx
  by_cases hxl : k ∈ lv
  · show (k, applyWrites k ld0 (pre ++ lv.map fun v => (v, sF v))) = (k, ld0)
    rw [applyWrites_append]
    rw [applyWrites_const_val k (applyWrites k ld0 pre) (sF k)
        (lv.map fun v => (v, sF v))
        (fun q hq hkq => by
          obtain ⟨v, hv, rfl⟩ := List.mem_map.mp hq
          rw [hkq])
        ⟨(k, sF k), List.mem_map.mpr ⟨k, hxl, rfl⟩, rfl⟩]
    rw [applyWrites_lineages]
    obtain ⟨ld, hld, hst⟩ := hstate k hxl
    have h1 : alookup k gd = some ld0 := alookup_of_mem_nodup gd k ld0 hkeys hx
    rw [hld] at h1
    have h2 : ld = ld0 := (Option.some.injEq _ _).mp h1
    subst h2
    obtain ⟨lin0, st0⟩ := ld
    simp only at hst
    rw [hst]
  · show (k, applyWrites k ld0 (pre ++ lv.map fun v => (v, sF v))) = (k, ld0)
    rw [applyWrites_not_mem]
    intro q hq
    rcases List.mem_append.mp hq with hq' | hq'
    · exact fun hh => hxl (hh ▸ hpre q hq')
    · obtain ⟨v, hv, rfl⟩ := List.mem_map.mp hq'
      exact fun hh => hxl (hh ▸ hv)

theorem applyWrites_mem_key (k : ℕ) (ld1 ld2 : LeafData)
    (hlin : ld1.lineages = ld2.lineages) (cfg : List (ℕ × (ℤ × ℤ)))
    (hk : k ∈ cfg.map Prod.fst) :
    applyWrites k ld1 cfg = applyWrites k ld2 cfg := by
  induction cfg generalizing ld1 ld2 with
  | nil => exact absurd hk (List.not_mem_nil k)
  | cons hd tl ih =>
    show applyWrites k (if k = hd.1 then ⟨ld1.lineages, some hd.2⟩ else ld1) tl
      = applyWrites k (if k = hd.1 then ⟨ld2.lineages, some hd.2⟩ else ld2) tl
    by_cases hkh : k = hd.1
    · rw [if_pos hkh, if_pos hkh, hlin]
    · rw [if_neg hkh, if_neg hkh]
      rcases List.mem_map.mp hk with ⟨q, hq, hq1⟩
      rcases List.mem_cons.mp hq with rfl | hq'
      · exact absurd hq1.symm hkh
      · exact ih ld1 ld2 hlin (List.mem_map.mpr ⟨q, hq', hq1⟩)

/-- Overwrite lemma: a prefix of writes whose keys are all re-written by the
following assignment list leaves no trace. -/
theorem writeAll_overwrite (gd : List (ℕ × LeafData)) (pre cfg : List (ℕ × (ℤ × ℤ)))
    (hpre : ∀ q ∈ pre, q.1 ∈ cfg.map Prod.fst) :
    writeAll gd (pre ++ cfg) = writeAll gd cfg := by
  rw [writeAll_eq_map, writeAll_eq_map]
  refine List.map_congr_left ?_
  rintro ⟨k, ld0⟩ -
  show (k, applyWrites k ld0 (pre ++ cfg)) = (k, applyWrites k ld0 cfg)
  rw [applyWrites_append]
  by_cases hkp : k ∈ pre.map Prod.fst
  · rcases List.mem_map.mp hkp with ⟨q, hq, hq1⟩
    have hkc : k ∈ cfg.map Prod.fst := hq1 ▸ hpre q hq
    rw [applyWrites_mem_key k (applyWrites k ld0 pre) ld0 (applyWrites_lineages k ld0 pre)
      cfg hkc]
  · rw [applyWrites_not_mem k ld0 pre fun q hq hh =>
      hkp (List.mem_map.mpr ⟨q, hq, hh.symm⟩)]

/-- Convenience form of `update_state_ok` for an undestructured graph. -/
theorem update_state_ok' (g : Demography) (st : List (ℕ × (ℤ × ℤ)))
    (h : ∀ q ∈ st, ∃ ld, alookup q.1 g.gdata = some ld ∧
      (ld.lineages : ℤ) = q.2.1 + q.2.2) :
    update_state g st = .ok ⟨writeAll g.gdata st, g.leaves⟩ := by
  obtain ⟨gd, lv⟩ := g
  exact update_state_ok gd lv st h

/-- Shared computation lemma: on a graph whose leaves all carry a present,
consistent observation state, `normalizing_constant` runs the whole
save/mutate/restore cycle through and returns the assert-guarded value
together with the original graph. -/
theorem normalizing_constant_run (gd : List (ℕ × LeafData)) (lv : List ℕ)
    (bsum p : ℚ) (ldF : ℕ → LeafData) (sF : ℕ → ℤ × ℤ)
    (hkeys : (gd.map Prod.fst).Nodup)
    (hfact : ∀ v ∈ lv, alookup v gd = some (ldF v) ∧ (ldF v).state = some (sF v) ∧
      (sF v).1 + (sF v).2 = ((ldF v).lineages : ℤ)) :
    normalizing_constant ⟨gd, lv⟩ bsum p
      = if 0 < bsum - p then .ok (bsum - p, ⟨gd, lv⟩) else .error .assertErr := by
  have hcap : captureState ⟨gd, lv⟩ = some (lv.map fun v => (v, sF v)) := by
    refine mapM_eq_some_map _ _ _ fun v hv => ?_
    obtain ⟨h1, h2, -⟩ := hfact v hv
    show (alookup v gd).bind _ = _
    rw [h1]
    show ((ldF v).state).map _ = _
    rw [h2]
    rfl
  have hanc : allAncestralState ⟨gd, lv⟩
      = some (lv.map fun v => (v, ((0 : ℤ), ((ldF v).lineages : ℤ)))) := by
    refine mapM_eq_some_map _ _ _ fun v hv => ?_
    show (alookup v gd).map _ = _
    rw [(hfact v hv).1]
    rfl
  have hup0 : update_state ⟨gd, lv⟩ (lv.map fun v => (v, ((0 : ℤ), ((ldF v).lineages : ℤ))))
      = .ok ⟨writeAll gd (lv.map fun v => (v, ((0 : ℤ), ((ldF v).lineages : ℤ)))), lv⟩ := by
    refine update_state_ok _ _ _ fun q hq => ?_
    obtain ⟨v, hv, rfl⟩ := List.mem_map.mp hq
    exact ⟨ldF v, (hfact v hv).1, by simp⟩
  have hlook1 : ∀ v ∈ lv,
      alookup v (writeAll gd (lv.map fun v => (v, ((0 : ℤ), ((ldF v).lineages : ℤ)))))
        = some (applyWrites v (ldF v)
            (lv.map fun v => (v, ((0 : ℤ), ((ldF v).lineages : ℤ))))) := by
    intro v hv
    rw [alookup_writeAll, (hfact v hv).1]
    rfl
  have hder : allDerivedState
        ⟨writeAll gd (lv.map fun v => (v, ((0 : ℤ), ((ldF v).lineages : ℤ)))), lv⟩
      = some (lv.map fun v => (v, (((ldF v).lineages : ℤ), (0 : ℤ)))) := by
    refine mapM_eq_some_map _ _ _ fun v hv => ?_
    show (alookup v (writeAll gd _)).map _ = _
    rw [hlook1 v hv]
    simp [applyWrites_lineages]
  have hup1 : update_state
        ⟨writeAll gd (lv.map fun v => (v, ((0 : ℤ), ((ldF v).lineages : ℤ)))), lv⟩
        (lv.map fun v => (v, (((ldF v).lineages : ℤ), (0 : ℤ))))
      = .ok ⟨writeAll (writeAll gd (lv.map fun v => (v, ((0 : ℤ), ((ldF v).lineages : ℤ)))))
            (lv.map fun v => (v, (((ldF v).lineages : ℤ), (0 : ℤ)))), lv⟩ := by
    refine update_state_ok _ _ _ fun q hq => ?_
    obtain ⟨v, hv, rfl⟩ := List.mem_map.mp hq
    refine ⟨_, hlook1 v hv, ?_⟩
    simp [applyWrites_lineages]
  have hlook2 : ∀ v ∈ lv,
      alookup v (writeAll (writeAll gd (lv.map fun v => (v, ((0 : ℤ), ((ldF v).lineages : ℤ)))))
          (lv.map fun v => (v, (((ldF v).lineages : ℤ), (0 : ℤ)))))
        = some (applyWrites v (applyWrites v (ldF v)
            (lv.map fun v => (v, ((0 : ℤ), ((ldF v).lineages : ℤ)))))
            (lv.map fun v => (v, (((ldF v).lineages : ℤ), (0 : ℤ))))) := by
    intro v hv
    rw [alookup_writeAll, hlook1 v hv]
    rfl
  have hup2 : update_state
        ⟨writeAll (writeAll gd (lv.map fun v => (v, ((0 : ℤ), ((ldF v).lineages : ℤ)))))
          (lv.map fun v => (v, (((ldF v).lineages : ℤ), (0 : ℤ)))), lv⟩
        (lv.map fun v => (v, sF v))
      = .ok ⟨writeAll (writeAll (writeAll gd
            (lv.map fun v => (v, ((0 : ℤ), ((ldF v).lineages : ℤ)))))
            (lv.map fun v => (v, (((ldF v).lineages : ℤ), (0 : ℤ)))))
            (lv.map fun v => (v, sF v)), lv⟩ := by
    refine update_state_ok _ _ _ fun q hq => ?_
    obtain ⟨v, hv, rfl⟩ := List.mem_map.mp hq
    refine ⟨_, hlook2 v hv, ?_⟩
    simp only [applyWrites_lineages]
    exact ((hfact v hv).2.2).symm
  have hfinal : writeAll (writeAll (writeAll gd
        (lv.map fun v => (v, ((0 : ℤ), ((ldF v).lineages : ℤ)))))
        (lv.map fun v => (v, (((ldF v).lineages : ℤ), (0 : ℤ)))))
        (lv.map fun v => (v, sF v)) = gd := by
    rw [← writeAll_append, ← writeAll_append, ← List.append_assoc]
    refine writeAll_restore gd lv sF _ hkeys ?_ ?_
    · intro q hq
      rcases List.mem_append.mp hq with hq' | hq' <;>
        · obtain ⟨v, hv, rfl⟩ := List.mem_map.mp hq'
          exact hv
    · intro v hv
      exact ⟨ldF v, (hfact v hv).1, (hfact v hv).2.1⟩
  simp only [normalizing_constant, hcap, hanc, hup0, hder, hup1, hup2, hfinal]

/-- C1: any value `normalizing_constant` actually returns is strictly
positive: positivity is enforced by the final `assert ret > 0.0`, so a
non-positive result is fatal (an exception) and is never returned.  (The
SumProduct engine feeding the computation is abstracted by the `bsum` and
`pAllDerived` parameters, see `normalizing_constant`.) -/
theorem C1_normalizing_constant_pos (g : Demography) (bsum pAllDerived : ℚ)
    (r : ℚ) (g' : Demography)
    (h : normalizing_constant g bsum pAllDerived = .ok (r, g')) : 0 < r := by
  simp only [normalizing_constant] at h
  repeat' split at h
  all_goals cases h
  all_goals linarith

/-- Witness for C1: on the concrete one-leaf graph with engine scalars
`bsum = 2`, `pAllDerived = 1` the function returns `2 - 1`, which is strictly
positive. -/
theorem C1_witness : (0 : ℚ) < 2 - 1 :=
  C1_normalizing_constant_pos demoOneLeafSet 2 1 (2 - 1) demoOneLeafSet (by
    have h : normalizing_constant demoOneLeafSet 2 1
        = if 0 < (2 : ℚ) - 1 then .ok ((2 : ℚ) - 1, demoOneLeafSet)
          else .error .assertErr := rfl
    rw [h, if_pos (by norm_num : (0 : ℚ) < 2 - 1)])

/-- C8 (amended): when every leaf carries a present, consistent observation
state on entry (and node keys are unique), any successful
`normalizing_constant` call returns the graph exactly as it was on entry: the
internal all-ancestral/all-derived mutations are undone by the save/restore
discipline, and no other graph attribute changes. -/
theorem C8_state_restored (g : Demography) (bsum pAllDerived : ℚ)
    (hkeys : (g.gdata.map Prod.fst).Nodup)
    (hset : ∀ v ∈ g.leaves, ∃ ld, alookup v g.gdata = some ld ∧
      ∃ s : ℤ × ℤ, ld.state = some s ∧ s.1 + s.2 = (ld.lineages : ℤ))
    (r : ℚ) (g' : Demography)
    (h : normalizing_constant g bsum pAllDerived = .ok (r, g')) :
    g' = g := by
  obtain ⟨gd, lv⟩ := g
  have hfact : ∀ v ∈ lv,
      alookup v gd = some ((alookup v gd).getD ⟨0, none⟩) ∧
      ((alookup v gd).getD ⟨0, none⟩).state
        = some (((alookup v gd).getD ⟨0, none⟩).state.getD (0, 0)) ∧
      (((alookup v gd).getD ⟨0, none⟩).state.getD (0, 0)).1
          + (((alookup v gd).getD ⟨0, none⟩).state.getD (0, 0)).2
        = (((alookup v gd).getD ⟨0, none⟩).lineages : ℤ) := by
    intro v hv
    obtain ⟨ld, hld, s, hs, hsum⟩ := hset v hv
    exact ⟨by simp [hld], by simp [hld, hs], by simp [hld, hs, hsum]⟩
  rw [normalizing_constant_run gd lv bsum pAllDerived _ _ hkeys hfact] at h
  split at h
  · rw [Except.ok.injEq, Prod.mk.injEq] at h
    exact h.2.symm
  · exact absurd h (by simp)

/-- Counterexample to C8 as stated: on a graph whose leaf observation state is
unset on entry, `normalizing_constant` returns successfully but leaves the
graph fully derived instead of restoring the entry state — the `try/except`
capture yields `prev_state = None` and the restore step is skipped. -/
theorem C8_counterexample :
    ∃ r g', normalizing_constant demoOneLeafUnset 2 1 = .ok (r, g')
      ∧ g' ≠ demoOneLeafUnset := by
  refine ⟨2 - 1, ⟨[(1, ⟨2, some (2, 0)⟩)], [1]⟩, ?_, by decide⟩
  have h : normalizing_constant demoOneLeafUnset 2 1
      = if 0 < (2 : ℚ) - 1
        then .ok ((2 : ℚ) - 1, (⟨[(1, ⟨2, some (2, 0)⟩)], [1]⟩ : Demography))
        else .error .assertErr := rfl
  rw [h, if_pos (by norm_num : (0 : ℚ) < 2 - 1)]

/-- Witness for the amended C8 at the concrete one-leaf graph with state
`(1, 1)` set on entry. -/
theorem C8_witness : demoOneLeafSet = demoOneLeafSet :=
  C8_state_restored demoOneLeafSet 2 1 (by decide)
    (fun v hv => by
      have hv1 : v = 1 := by simpa [demoOneLeafSet] using hv
      subst hv1
      exact ⟨⟨2, some (1, 1)⟩, rfl, (1, 1), rfl, by decide⟩)
    (2 - 1) demoOneLeafSet (by
      have h : normalizing_constant demoOneLeafSet 2 1
          = if 0 < (2 : ℚ) - 1 then .ok ((2 : ℚ) - 1, demoOneLeafSet)
            else .error .assertErr := rfl
      rw [h, if_pos (by norm_num : (0 : ℚ) < 2 - 1)])

/-- Helper: inserting `a` at a valid position `i` after erasing position `i`
is the same as overwriting position `i`. -/
theorem insertIdx_eraseIdx_set (l : List ℕ) (i : ℕ) (a : ℕ) (h : i < l.length) :
    (l.eraseIdx i).insertIdx i a = l.set i a := by
  induction l generalizing i with
  | nil => simp at h
  | cons x t ih =>
    cases i with
    | zero => simp [List.insertIdx_zero]
    | succ n =>
      show x :: (t.eraseIdx n).insertIdx n a = x :: t.set n a
      rw [ih n (by simpa using h)]

/-- Helper: overwriting a valid position with the value already there is the
identity. -/
theorem set_getD_self (l : List ℕ) (i : ℕ) (h : i < l.length) :
    l.set i (l.getD i 0) = l := by
  induction l generalizing i with
  | nil => simp at h
  | cons x t ih =>
    cases i with
    | zero => rfl
    | succ n =>
      show x :: t.set n (t.getD n 0) = x :: t
      rw [ih n (by simpa using h)]

/-- C7: `transition(v, tau=0)` is the identity: a zero `tau` forces
`scaled_time = 0`, in which case `transition_prob` returns its input unchanged
for any distribution `v` and any lineage count, and the Moran operator is not
invoked (the result does not depend on the eigensystem table or on the
exponential primitive). -/
theorem C7_transition_identity (ES ES' : ℕ → EigSys) (rexp rexp' : ℚ → ℚ)
    (c : ConstantTruncatedSizeHistory) (v : NDArray) (axis : ℕ) :
    (c.tau = some 0 → c.scaled_time = some 0) ∧
    (c.scaled_time = some 0 →
      transition_prob ES rexp c v axis = some v ∧
      transition_prob ES rexp c v axis = transition_prob ES' rexp' c v axis) := by
  constructor
  · intro h
    simp [ConstantTruncatedSizeHistory.scaled_time, h]
  · intro h
    simp [transition_prob, h]

/-- Witness for C7 at the concrete history `n_max = 2`, `tau = 0`, `N = 1` and
a concrete length-3 distribution. -/
theorem C7_witness :
    transition_prob (fun _ => ⟨fun _ _ => 0, fun _ => 0, fun _ _ => 0⟩) (fun _ => 0)
        ⟨2, some 0, 1⟩ ⟨[3], fun _ => 1⟩ 0 = some ⟨[3], fun _ => 1⟩ :=
  ((C7_transition_identity (fun _ => ⟨fun _ _ => 0, fun _ => 0, fun _ _ => 0⟩)
      (fun _ => ⟨fun _ _ => 1, fun _ => 1, fun _ _ => 1⟩) (fun _ => 0) (fun _ => 1)
      ⟨2, some 0, 1⟩ ⟨[3], fun _ => 1⟩ 0).2
      (by simp [ConstantTruncatedSizeHistory.scaled_time])).1

/-- Counterexample to C9 as stated: a constant history with lineage count
`n_max = 2` applies its transition to a vector whose acted-on axis has size 2
(so the lineage count mismatches the axis: `n_max ≠ shape[axis] - 1`), yet the
operation succeeds rather than failing: `moran_action` derives its `n` from the
axis size and cannot detect the mismatch. -/
theorem C9_counterexample :
    (⟨2, some 1, 1⟩ : ConstantTruncatedSizeHistory).n_max ≠ vec2.shape.getD 0 0 - 1 ∧
    (transition_prob idES (fun _ => 1) ⟨2, some 1, 1⟩ vec2 0).isSome = true := by
  refine ⟨by decide, ?_⟩
  have h : ConstantTruncatedSizeHistory.scaled_time ⟨2, some 1, 1⟩ = some 1 := by
    simp [ConstantTruncatedSizeHistory.scaled_time]
  simp only [transition_prob, h]
  rw [if_neg (by norm_num : ¬ (1 : ℚ) = 0)]
  decide

/-- C9 (amended): `moran_action` derives the lineage count from the acted-on
axis itself (`n = v.shape[axis] - 1`), so a mismatching caller-side lineage
count cannot make it fail; for a valid axis of positive extent it succeeds, the
result has the same shape as `v` (the final assertion always passes), and each
output entry contracts the kernel `P.diag(exp(t*d)).Pinv` along `axis` only,
leaving all other axes untouched; an out-of-range axis fails. -/
theorem C9_moran_action_shape (ES : ℕ → EigSys) (rexp : ℚ → ℚ) (t : ℚ) (v : NDArray)
    (axis : ℕ) :
    (v.shape.length ≤ axis → moran_action ES rexp t v axis = none) ∧
    (axis < v.shape.length → 1 ≤ v.shape.getD axis 0 →
      ∃ ret, moran_action ES rexp t v axis = some ret ∧
        ret.shape = v.shape ∧
        ∀ idx : List ℕ, axis < idx.length →
          ret.data idx
            = ∑ j ∈ Finset.range (v.shape.getD axis 0),
                v.data (idx.set axis j)
                  * moranKernel rexp (ES (v.shape.getD axis 0 - 1)) t
                      (v.shape.getD axis 0 - 1) (idx.getD axis 0) j) := by
  constructor
  · intro h
    rw [moran_action, if_neg (not_lt.mpr h)]
  · intro h1 h2
    have hn : v.shape.getD axis 0 - 1 + 1 = v.shape.getD axis 0 := by omega
    have hshape :
        (transposeLastTo (tensordotAxis v
            (moranKernel rexp (ES (v.shape.getD axis 0 - 1)) t (v.shape.getD axis 0 - 1))
            axis (v.shape.getD axis 0 - 1)) axis).shape = v.shape := by
      show ((v.shape.eraseIdx axis ++ [v.shape.getD axis 0 - 1 + 1]).dropLast).insertIdx axis
          ((v.shape.eraseIdx axis ++ [v.shape.getD axis 0 - 1 + 1]).getLastD 0) = v.shape
      rw [List.dropLast_concat, List.getLastD_concat, hn,
        insertIdx_eraseIdx_set _ _ _ h1, set_getD_self _ _ h1]
    refine ⟨_, by rw [moran_action, if_pos h1]; rw [if_pos hshape], hshape, ?_⟩
    intro idx hidx
    show (tensordotAxis v
        (moranKernel rexp (ES (v.shape.getD axis 0 - 1)) t (v.shape.getD axis 0 - 1))
        axis (v.shape.getD axis 0 - 1)).data (idx.eraseIdx axis ++ [idx.getD axis 0]) = _
    show (∑ j ∈ Finset.range (v.shape.getD axis 0 - 1 + 1),
        v.data (((idx.eraseIdx axis ++ [idx.getD axis 0]).dropLast).insertIdx axis j)
          * moranKernel rexp (ES (v.shape.getD axis 0 - 1)) t (v.shape.getD axis 0 - 1)
              ((idx.eraseIdx axis ++ [idx.getD axis 0]).getLastD 0) j) = _
    rw [hn, List.dropLast_concat, List.getLastD_concat]
    refine Finset.sum_congr rfl fun j _ => ?_
    rw [insertIdx_eraseIdx_set _ _ _ hidx]

/-- Witness for the amended C9 at a concrete length-3 vector and axis 0. -/
theorem C9_witness :
    ∃ ret, moran_action idES (fun _ => 1) 1 ⟨[3], fun _ => 1⟩ 0 = some ret ∧
      ret.shape = NDArray.shape ⟨[3], fun _ => 1⟩ ∧
      ∀ idx : List ℕ, 0 < idx.length →
        ret.data idx
          = ∑ j ∈ Finset.range ((NDArray.shape ⟨[3], fun _ => 1⟩).getD 0 0),
              NDArray.data ⟨[3], fun _ => 1⟩ (idx.set 0 j)
                * moranKernel (fun _ => 1)
                    (idES ((NDArray.shape ⟨[3], fun _ => 1⟩).getD 0 0 - 1)) 1
                    ((NDArray.shape ⟨[3], fun _ => 1⟩).getD 0 0 - 1) (idx.getD 0 0) j :=
  (C9_moran_action_shape idES (fun _ => 1) 1 ⟨[3], fun _ => 1⟩ 0).2 (by decide) (by decide)

/-- Unfolding equation for one `log_likelihood_prf` loop iteration. -/
theorem llp_loop_cons (rlog : ℚ → ℚ) (p : Demography → ℚ) (theta : ℚ) (g : Demography)
    (acc : ℚ) (states : List ℕ) (w : ℕ) (rest : List (List ℕ × ℕ)) :
    llp_loop rlog p theta g acc ((states, w) :: rest)
      = match configState g states with
        | none => .error .keyErr
        | some st =>
          match update_state g st with
          | .error e => .error (.raised e)
          | .ok g1 => llp_loop rlog p theta g1
              (acc + rlog (p g1 * theta / 2) * w - rlog ((w.factorial : ℚ))) rest := rfl

/-- Reduced unfolding of one loop iteration when the configuration state and
the update both succeed. -/
theorem llp_loop_cons_eq (rlog : ℚ → ℚ) (p : Demography → ℚ) (theta : ℚ)
    (g g1 : Demography) (acc : ℚ) (states : List ℕ) (w : ℕ) (rest : List (List ℕ × ℕ))
    (st : List (ℕ × (ℤ × ℤ)))
    (hcfg : configState g states = some st) (hupd : update_state g st = .ok g1) :
    llp_loop rlog p theta g acc ((states, w) :: rest)
      = llp_loop rlog p theta g1
          (acc + rlog (p g1 * theta / 2) * w - rlog ((w.factorial : ℚ))) rest := by
  rw [llp_loop_cons, hcfg]
  show (match update_state g st with
    | .error e => Except.error (LLErr.raised e)
    | .ok g1 => llp_loop rlog p theta g1
        (acc + rlog (p g1 * theta / 2) * w - rlog ((w.factorial : ℚ))) rest) = _
  rw [hupd]

/-- Execution lemma for the `log_likelihood_prf` loop: starting from the
original graph, or from the graph configured by any full-length configuration,
the loop sets each configuration in turn and accumulates the closed-form
sum. -/
theorem llp_loop_run (rlog : ℚ → ℚ) (p : Demography → ℚ) (theta : ℚ) (g : Demography)
    (hpresent : ∀ v ∈ g.leaves, (alookup v g.gdata).isSome = true) :
    ∀ (sfs : List (List ℕ × ℕ)) (gcur : Demography) (acc : ℚ),
      (gcur = g ∨ ∃ s0, s0.length = g.leaves.length ∧ gcur = setConfig g s0) →
      (∀ q ∈ sfs, q.1.length = g.leaves.length) →
      llp_loop rlog p theta gcur acc sfs
        = if acc + (sfs.map fun q => rlog (p (setConfig g q.1) * theta / 2) * q.2
              - rlog ((q.2.factorial : ℚ))).sum < 0
          then .ok (acc + (sfs.map fun q => rlog (p (setConfig g q.1) * theta / 2) * q.2
              - rlog ((q.2.factorial : ℚ))).sum)
          else .error .assertErr := by
  intro sfs
  induction sfs with
  | nil =>
    intro gcur acc hg hlens
    simp [llp_loop]
  | cons q rest ih =>
    obtain ⟨states, w⟩ := q
    intro gcur acc hg hlens
    have hleq : gcur.leaves = g.leaves := by
      rcases hg with rfl | ⟨s0, -, rfl⟩ <;> rfl
    have hlook : ∀ v ∈ g.leaves, ∃ ld, alookup v gcur.gdata = some ld ∧
        ld.lineages = ((alookup v g.gdata).getD ⟨0, none⟩).lineages := by
      intro v hv
      obtain ⟨ld, hld⟩ := Option.isSome_iff_exists.mp (hpresent v hv)
      rcases hg with rfl | ⟨s0, -, rfl⟩
      · exact ⟨ld, hld, by simp [hld]⟩
      · have hl : alookup v (setConfig g s0).gdata
            = some (applyWrites v ld ((g.leaves.zip s0).map fun z =>
                (z.1, ((z.2 : ℤ),
                  ((((alookup z.1 g.gdata).getD ⟨0, none⟩).lineages : ℤ) - (z.2 : ℤ)))))) := by
          show alookup v (writeAll g.gdata _) = _
          rw [alookup_writeAll, hld]
          rfl
        exact ⟨_, hl, by rw [applyWrites_lineages]; simp [hld]⟩
    have hcfg : configState gcur states
        = some ((g.leaves.zip states).map fun z =>
            (z.1, ((z.2 : ℤ),
              ((((alookup z.1 g.gdata).getD ⟨0, none⟩).lineages : ℤ) - (z.2 : ℤ))))) := by
      show (gcur.leaves.zip states).mapM _ = _
      rw [hleq]
      refine mapM_eq_some_map _ _ _ fun z hz => ?_
      obtain ⟨ld, hld, hlin⟩ := hlook z.1 (List.of_mem_zip hz).1
      rw [hld]
      simp [hlin]
    have hupd : update_state gcur ((g.leaves.zip states).map fun z =>
          (z.1, ((z.2 : ℤ),
            ((((alookup z.1 g.gdata).getD ⟨0, none⟩).lineages : ℤ) - (z.2 : ℤ)))))
        = .ok ⟨writeAll gcur.gdata ((g.leaves.zip states).map fun z =>
            (z.1, ((z.2 : ℤ),
              ((((alookup z.1 g.gdata).getD ⟨0, none⟩).lineages : ℤ) - (z.2 : ℤ))))),
          gcur.leaves⟩ := by
      refine update_state_ok' _ _ fun z hz => ?_
      obtain ⟨y, hy, rfl⟩ := List.mem_map.mp hz
      obtain ⟨ld, hld, hlin⟩ := hlook y.1 (List.of_mem_zip hy).1
      refine ⟨ld, hld, ?_⟩
      rw [hlin]
      ring
    have hsetcfg : (⟨writeAll gcur.gdata ((g.leaves.zip states).map fun z =>
          (z.1, ((z.2 : ℤ),
            ((((alookup z.1 g.gdata).getD ⟨0, none⟩).lineages : ℤ) - (z.2 : ℤ))))),
          gcur.leaves⟩ : Demography) = setConfig g states := by
      rcases hg with rfl | ⟨s0, hs0len, rfl⟩
      · rfl
      · show (⟨writeAll (writeAll g.gdata _) _, g.leaves⟩ : Demography) = _
        rw [← writeAll_append]
        rw [writeAll_overwrite]
        · rfl
        · intro z hz
          obtain ⟨y, hy, rfl⟩ := List.mem_map.mp hz
          have hy1 : y.1 ∈ g.leaves := (List.of_mem_zip hy).1
          have hkeys : ((g.leaves.zip states).map fun z =>
              (z.1, ((z.2 : ℤ),
                ((((alookup z.1 g.gdata).getD ⟨0, none⟩).lineages : ℤ) - (z.2 : ℤ))))).map
                Prod.fst = g.leaves := by
            rw [List.map_map]
            have : (g.leaves.zip states).map (Prod.fst ∘ fun z =>
                (z.1, ((z.2 : ℤ),
                  ((((alookup z.1 g.gdata).getD ⟨0, none⟩).lineages : ℤ) - (z.2 : ℤ)))))
                = (g.leaves.zip states).map Prod.fst :=
              List.map_congr_left fun z _ => rfl
            rw [this, List.map_fst_zip]
            rw [hlens (states, w) (List.mem_cons_self _ _)]
          rw [hkeys]
          exact hy1
    rw [llp_loop_cons_eq rlog p theta gcur _ acc states w rest _ hcfg hupd, hsetcfg]
    rw [ih (setConfig g states)
        (acc + rlog (p (setConfig g states) * theta / 2) * w - rlog ((w.factorial : ℚ)))
        (Or.inr ⟨states, hlens (states, w) (List.mem_cons_self _ _), rfl⟩)
        (fun z hz => hlens z (List.mem_cons_of_mem _ hz))]
    have harith : acc + rlog (p (setConfig g states) * theta / 2) * w
          - rlog ((w.factorial : ℚ))
          + (rest.map fun q => rlog (p (setConfig g q.1) * theta / 2) * q.2
              - rlog ((q.2.factorial : ℚ))).sum
        = acc + (((states, w) :: rest).map fun q =>
            rlog (p (setConfig g q.1) * theta / 2) * q.2
              - rlog ((q.2.factorial : ℚ))).sum := by
      rw [List.map_cons, List.sum_cons]
      ring
    rw [harith]

/-- C2: `log_likelihood_prf(theta, sfs)` returns exactly
`-normalizing_constant * theta/2 + sum_config (weight * log(p(config) * theta/2)
- log(weight!))`, where `p(config)` is the engine probability of the graph
with each leaf's observation state set to that configuration; and any returned
value is strictly negative, enforced by the final `assert ret < 0.0`.  (The
engine `p` and the cached normalizing constant are abstract parameters, see
`log_likelihood_prf`; `gammaln(w+1)` at integer weight `w` is `log(w!)`.) -/
theorem C2_log_likelihood_prf (g : Demography) (totalSfsSum theta : ℚ) (rlog : ℚ → ℚ)
    (p : Demography → ℚ) (sfs : List (List ℕ × ℕ))
    (hpresent : ∀ v ∈ g.leaves, (alookup v g.gdata).isSome = true)
    (hlens : ∀ q ∈ sfs, q.1.length = g.leaves.length)
    (r : ℚ) (h : log_likelihood_prf g totalSfsSum rlog p theta sfs = .ok r) :
    r = -totalSfsSum * theta / 2
        + (sfs.map fun q => rlog (p (setConfig g q.1) * theta / 2) * q.2
            - rlog ((q.2.factorial : ℚ))).sum
      ∧ r < 0 := by
  rw [log_likelihood_prf,
    llp_loop_run rlog p theta g hpresent sfs g _ (Or.inl rfl) hlens] at h
  split at h
  · cases h
    exact ⟨rfl, by assumption⟩
  · cases h

/-- Witness for C2 on the concrete one-leaf graph with `theta = 2`,
`totalSfsSum = 1`, the constant-zero logarithm, the constant-one engine, and
the single configuration `[1]` with weight 1: the returned value is negative. -/
theorem C2_witness : (-1 * 2 / 2 + 0 * ((1 : ℕ) : ℚ) - 0 : ℚ) < 0 :=
  (C2_log_likelihood_prf demoOneLeafSet 1 2 (fun _ => 0) (fun _ => 1) [([1], 1)]
    (by decide) (by decide) (-1 * 2 / 2 + 0 * ((1 : ℕ) : ℚ) - 0) (by
      have h0 : log_likelihood_prf demoOneLeafSet 1 (fun _ => 0) (fun _ => 1) 2 [([1], 1)]
          = if (-1 * 2 / 2 + 0 * ((1 : ℕ) : ℚ) - 0 : ℚ) < 0
            then .ok (-1 * 2 / 2 + 0 * ((1 : ℕ) : ℚ) - 0 : ℚ)
            else .error .assertErr := rfl
      rw [h0, if_pos (by norm_num : (-1 * 2 / 2 + 0 * ((1 : ℕ) : ℚ) - 0 : ℚ) < 0)])).2

/-- Vandermonde row sum: each hypergeometric kernel sums to `1` over its
support. -/
theorem sum_hyperVec (n nf der : ℕ) (hnf : nf ≤ n) (hder : der ≤ n) :
    ∑ i ∈ Finset.range (nf + 1), hyperVec n nf der i = 1 := by
  have hC : (0 : ℚ) < (n.choose nf : ℚ) := by exact_mod_cast Nat.choose_pos hnf
  have hnat : (∑ i ∈ Finset.range (nf + 1), der.choose i * (n - der).choose (nf - i))
      = n.choose nf := by
    have hv := Nat.add_choose_eq der (n - der) nf
    rw [Nat.add_sub_cancel' hder] at hv
    rw [Finset.Nat.sum_antidiagonal_eq_sum_range_succ_mk] at hv
    exact hv.symm
  have hcast : (∑ i ∈ Finset.range (nf + 1),
      (der.choose i : ℚ) * ((n - der).choose (nf - i) : ℚ)) = (n.choose nf : ℚ) := by
    exact_mod_cast congrArg (Nat.cast : ℕ → ℚ) hnat
  have hcongr : ∀ i ∈ Finset.range (nf + 1), hyperVec n nf der i
      = (der.choose i : ℚ) * ((n - der).choose (nf - i) : ℚ) / (n.choose nf : ℚ) := by
    intro i hi
    rw [hyperVec, if_pos (Nat.lt_succ_iff.mp (Finset.mem_range.mp hi))]
  rw [Finset.sum_congr rfl hcongr, ← Finset.sum_div, hcast, div_self hC.ne']

/-- The inner admixture kernel is a probability vector: summed over the child
derived count it equals `1` (the sum of a convolution is the product of the
sums, and each hypergeometric kernel sums to `1`). -/
theorem sum_der_in_admixture_node (nf1 nf2 d1 d2 : ℕ)
    (h1 : d1 ≤ nf1 + nf2) (h2 : d2 ≤ nf1 + nf2) :
    ∑ c ∈ Finset.range (nf1 + nf2 + 1), der_in_admixture_node nf1 nf2 d1 d2 c = 1 := by
  have hflip := Finset.sum_range_diag_flip (nf1 + nf2 + 1)
    (fun i j => hyperVec (nf1 + nf2) nf1 d1 i * hyperVec (nf1 + nf2) nf2 d2 j)
  have hstep1 : (∑ c ∈ Finset.range (nf1 + nf2 + 1), der_in_admixture_node nf1 nf2 d1 d2 c)
      = ∑ m ∈ Finset.range (nf1 + nf2 + 1), ∑ k ∈ Finset.range (nf1 + nf2 + 1 - m),
          hyperVec (nf1 + nf2) nf1 d1 m * hyperVec (nf1 + nf2) nf2 d2 k := hflip
  rw [hstep1]
  have hstep2 : ∀ m ∈ Finset.range (nf1 + 1),
      (∑ k ∈ Finset.range (nf1 + nf2 + 1 - m),
          hyperVec (nf1 + nf2) nf1 d1 m * hyperVec (nf1 + nf2) nf2 d2 k)
        = hyperVec (nf1 + nf2) nf1 d1 m
            * ∑ k ∈ Finset.range (nf2 + 1), hyperVec (nf1 + nf2) nf2 d2 k := by
    intro m hm
    rw [← Finset.mul_sum]
    congr 1
    refine (Finset.sum_subset (Finset.range_subset.mpr ?_) ?_).symm
    · have hm' := Finset.mem_range.mp hm
      omega
    · intro k hk1 hk2
      have hk3 : ¬ k ≤ nf2 := by
        simp only [Finset.mem_range, not_lt] at hk2
        omega
      rw [hyperVec, if_neg hk3]
  have hzero : ∀ m ∈ Finset.range (nf1 + nf2 + 1), m ∉ Finset.range (nf1 + 1) →
      (∑ k ∈ Finset.range (nf1 + nf2 + 1 - m),
          hyperVec (nf1 + nf2) nf1 d1 m * hyperVec (nf1 + nf2) nf2 d2 k) = 0 := by
    intro m _ hm
    have hm3 : ¬ m ≤ nf1 := by
      simp only [Finset.mem_range, not_lt] at hm
      omega
    have : hyperVec (nf1 + nf2) nf1 d1 m = 0 := by
      rw [hyperVec, if_neg hm3]
    simp [this]
  rw [← Finset.sum_subset (Finset.range_subset.mpr (by omega)) hzero,
    Finset.sum_congr rfl hstep2, ← Finset.sum_mul,
    sum_hyperVec (nf1 + nf2) nf1 d1 (by omega) h1,
    sum_hyperVec (nf1 + nf2) nf2 d2 (by omega) h2, one_mul]

/-- C3: for an admixture node with `n` lineages whose parent split
probabilities sum to `1`, the admixture-probability tensor summed over the
`child_derived` axis equals `1` for every fixed pair
`(parent1_derived, parent2_derived)` in range. -/
theorem C3_admixture_prob_sums_to_one (n_node : ℕ) (prob1 prob2 : ℚ)
    (hsum : prob1 + prob2 = 1) (par1_der par2_der : ℕ)
    (h1 : par1_der ≤ n_node) (h2 : par2_der ≤ n_node) :
    ∑ child_der ∈ Finset.range (n_node + 1),
      admixture_prob_entry n_node prob1 prob2 child_der par1_der par2_der = 1 := by
  unfold admixture_prob_entry
  rw [Finset.sum_comm]
  have hinner : ∀ nf1 ∈ Finset.range (n_node + 1),
      (∑ c ∈ Finset.range (n_node + 1),
        (n_node.choose nf1 : ℚ) * prob1 ^ nf1 * prob2 ^ (n_node - nf1)
          * der_in_admixture_node nf1 (n_node - nf1) par1_der par2_der c)
      = (n_node.choose nf1 : ℚ) * prob1 ^ nf1 * prob2 ^ (n_node - nf1) := by
    intro nf1 hnf1
    have hle : nf1 ≤ n_node := Nat.lt_succ_iff.mp (Finset.mem_range.mp hnf1)
    rw [← Finset.mul_sum]
    have hrange : Finset.range (n_node + 1) = Finset.range (nf1 + (n_node - nf1) + 1) := by
      congr 1
      omega
    rw [hrange, sum_der_in_admixture_node nf1 (n_node - nf1) par1_der par2_der
      (by omega) (by omega), mul_one]
  rw [Finset.sum_congr rfl hinner]
  have hbin := add_pow prob1 prob2 n_node
  rw [hsum, one_pow] at hbin
  calc (∑ nf1 ∈ Finset.range (n_node + 1),
        (n_node.choose nf1 : ℚ) * prob1 ^ nf1 * prob2 ^ (n_node - nf1))
      = ∑ nf1 ∈ Finset.range (n_node + 1),
          prob1 ^ nf1 * prob2 ^ (n_node - nf1) * (n_node.choose nf1 : ℚ) :=
        Finset.sum_congr rfl fun _ _ => by ring
    _ = 1 := hbin.symm

/-- Witness for C3 at `n = 1`, split probabilities `1/2` and `1/2`,
parent derived counts `(0, 1)`. -/
theorem C3_witness :
    ∑ child_der ∈ Finset.range (1 + 1),
      admixture_prob_entry 1 (1 / 2) (1 / 2) child_der 0 1 = 1 :=
  C3_admixture_prob_sums_to_one 1 (1 / 2) (1 / 2) (by norm_num) 0 1
    (by decide) (by decide)

section LookupLemmas

variable {α β : Type} [DecidableEq α]

theorem lookupA_eq_none (k : α) (l : List (α × β)) :
    lookupA k l = none ↔ k ∉ l.map Prod.fst := by
  induction l with
  | nil => simp [lookupA]
  | cons hd tl ih =>
    obtain ⟨a, b⟩ := hd
    by_cases hak : a = k
    · subst hak
      simp [lookupA]
    · simp [lookupA, hak, ih, Ne.symm hak]

theorem lookupA_mem {k : α} {b : β} {l : List (α × β)} (h : lookupA k l = some b) :
    (k, b) ∈ l := by
  induction l with
  | nil => simp [lookupA] at h
  | cons hd tl ih =>
    obtain ⟨a, c⟩ := hd
    by_cases hak : a = k
    · subst hak
      simp only [lookupA, if_pos rfl] at h
      cases h
      exact List.mem_cons_self _ _
    · simp only [lookupA, if_neg hak] at h
      exact List.mem_cons_of_mem _ (ih h)

theorem lookupA_mem_keys {k : α} {b : β} {l : List (α × β)} (h : lookupA k l = some b) :
    k ∈ l.map Prod.fst :=
  List.mem_map.mpr ⟨(k, b), lookupA_mem h, rfl⟩

theorem lookupA_of_mem_nodup (l : List (α × β)) (k : α) (b : β)
    (hkeys : (l.map Prod.fst).Nodup) (hmem : (k, b) ∈ l) :
    lookupA k l = some b := by
  induction l with
  | nil => exact absurd hmem (List.not_mem_nil _)
  | cons hd tl ih =>
    rcases List.mem_cons.mp hmem with rfl | hmem'
    · simp [lookupA]
    · have hne : hd.1 ≠ k := by
        intro hk
        have : k ∈ tl.map Prod.fst := List.mem_map.mpr ⟨(k, b), hmem', rfl⟩
        rw [List.map_cons, List.nodup_cons, hk] at hkeys
        exact hkeys.1 this
      simpa [lookupA, hne] using ih (List.nodup_cons.mp (by simpa using hkeys)).2 hmem'

theorem lookupA_append_of_some {k : α} {v : β} {a : List (α × β)} (b : List (α × β))
    (h : lookupA k a = some v) : lookupA k (a ++ b) = some v := by
  induction a with
  | nil => simp [lookupA] at h
  | cons hd tl ih =>
    obtain ⟨x, y⟩ := hd
    by_cases hxk : x = k
    · subst hxk
      simp only [lookupA, if_pos rfl] at h ⊢
      exact h
    · simp only [lookupA, if_neg hxk] at h ⊢
      exact ih h

theorem lookupA_append_of_none {k : α} {a : List (α × β)} (b : List (α × β))
    (h : lookupA k a = none) : lookupA k (a ++ b) = lookupA k b := by
  induction a with
  | nil => rfl
  | cons hd tl ih =>
    obtain ⟨x, y⟩ := hd
    by_cases hxk : x = k
    · subst hxk
      simp [lookupA] at h
    · simp only [lookupA, if_neg hxk] at h ⊢
      exact ih h

theorem lookupA_filter_key (pb : α → Bool) (k : α) (l : List (α × β)) :
    lookupA k (l.filter fun q => pb q.1) = if pb k then lookupA k l else none := by
  induction l with
  | nil => simp [lookupA]
  | cons hd tl ih =>
    obtain ⟨a, b⟩ := hd
    by_cases hak : a = k
    · subst hak
      cases hpa : pb a
      · simp [List.filter_cons, hpa, ih, lookupA]
      · simp [List.filter_cons, hpa, lookupA]
    · cases hpa : pb a
      · simp [List.filter_cons, hpa, ih, lookupA, hak]
      · simp [List.filter_cons, hpa, ih, lookupA, hak]

theorem lookupA_map_const (k : α) (l : List α) (v : β) :
    lookupA k (l.map fun q => (q, v)) = if k ∈ l then some v else none := by
  induction l with
  | nil => simp [lookupA]
  | cons hd tl ih =>
    by_cases hhk : hd = k
    · subst hhk
      simp [lookupA]
    · simp [lookupA, hhk, ih, Ne.symm hhk]

theorem map_fst_filter_key (pb : α → Bool) (l : List (α × β)) :
    (l.filter fun q => pb q.1).map Prod.fst = (l.map Prod.fst).filter pb := by
  induction l with
  | nil => rfl
  | cons hd tl ih =>
    cases hpa : pb hd.1 <;> simp [List.filter_cons, hpa, ih]

theorem filter_eq_singleton (l : List α) (p : α → Bool) (r : α)
    (hnodup : l.Nodup) (hr : r ∈ l) (hp : ∀ x ∈ l, p x = true ↔ x = r) :
    l.filter p = [r] := by
  induction l with
  | nil => exact absurd hr (List.not_mem_nil r)
  | cons a t ih =>
    rcases List.nodup_cons.mp hnodup with ⟨hat, htnd⟩
    by_cases har : a = r
    · subst har
      rw [List.filter_cons, if_pos ((hp a (List.mem_cons_self a t)).mpr rfl)]
      have ht0 : t.filter p = [] := by
        rw [List.filter_eq_nil_iff]
        intro x hx hpx
        exact hat (((hp x (List.mem_cons_of_mem a hx)).mp hpx) ▸ hx)
      rw [ht0]
    · have hpa : ¬ p a = true := fun hpa => har ((hp a (List.mem_cons_self a t)).mp hpa)
      rw [List.filter_cons, if_neg hpa]
      have hrt : r ∈ t := by
        rcases List.mem_cons.mp hr with h | h
        · exact absurd h.symm har
        · exact h
      exact ih htnd hrt fun x hx => hp x (List.mem_cons_of_mem a hx)

theorem eq_singleton_of_nodup_mem_iff (l : List α) (r : α) (hnodup : l.Nodup)
    (h : ∀ x, x ∈ l ↔ x = r) : l = [r] := by
  cases l with
  | nil => exact absurd ((h r).mpr rfl) (List.not_mem_nil r)
  | cons a t =>
    have har : a = r := (h a).mp (List.mem_cons_self a t)
    subst har
    cases t with
    | nil => rfl
    | cons b u =>
      have hbr : b = a := (h b).mp (List.mem_cons_of_mem a (List.mem_cons_self b u))
      have hmem : a ∈ b :: u := by
        rw [← hbr]
        exact List.mem_cons_self b u
      exact absurd hmem (List.nodup_cons.mp hnodup).1

theorem length_eq_of_nodup_mem_iff (l1 l2 : List α) (h1 : l1.Nodup) (h2 : l2.Nodup)
    (h : ∀ x, x ∈ l1 ↔ x ∈ l2) : l1.length = l2.length := by
  rw [← List.toFinset_card_of_nodup h1, ← List.toFinset_card_of_nodup h2]
  congr 1
  ext x
  simp [h x]

end LookupLemmas

theorem lookupA_map_fun {α β : Type} [DecidableEq α] (k : α) (l : List α) (f : α → β) :
    lookupA k (l.map fun x => (x, f x)) = if k ∈ l then some (f k) else none := by
  induction l with
  | nil => simp [lookupA]
  | cons a t ih =>
    by_cases hak : a = k
    · subst hak
      simp [lookupA]
    · simp [lookupA, hak, ih, Ne.symm hak]

/-- The initial builder state satisfies the invariant for nodup leaves. -/
theorem inv_init (leaves : List ℕ) (hnd : leaves.Nodup) :
    Inv (initState leaves) leaves 0 := by
  have hkeys : (initState leaves).curr.map Prod.fst = leaves := by
    show (leaves.map fun l => (l, EvId.leaf l)).map Prod.fst = leaves
    rw [List.map_map]
    exact List.map_id' leaves
  have hvals : (initState leaves).curr.map Prod.snd = leaves.map EvId.leaf := by
    simp [initState]
  have hikeys : (initState leaves).infos.map Prod.fst = leaves.map EvId.leaf := by
    simp [initState]
  constructor
  case live_nodup => exact hnd
  case keys_nodup => rw [hkeys]; exact hnd
  case keys_live => intro p; rw [hkeys]
  case owner_subpops =>
    intro ev hev
    rw [hvals] at hev
    obtain ⟨l, hl, rfl⟩ := List.mem_map.mp hev
    refine ⟨⟨[l], [l], []⟩, ?_, List.nodup_singleton l, ?_⟩
    · refine lookupA_of_mem_nodup _ _ _ ?_ ?_
      · rw [hikeys]
        exact hnd.map fun _ _ hab => EvId.leaf.inj hab
      · exact List.mem_map.mpr ⟨l, hl, rfl⟩
    · intro q
      show q ∈ [l] ↔ lookupA q ((initState leaves).curr) = some (EvId.leaf l)
      rw [show (initState leaves).curr = leaves.map fun x => (x, EvId.leaf x) from rfl,
        lookupA_map_fun]
      constructor
      · intro hq
        rw [List.mem_singleton] at hq
        subst hq
        rw [if_pos hl]
      · intro hq
        by_cases hql : q ∈ leaves
        · rw [if_pos hql] at hq
          have hql2 : q = l := EvId.leaf.inj ((Option.some.injEq _ _).mp hq)
          simp [hql2]
        · rw [if_neg hql] at hq
          cases hq
  case infos_nodup =>
    rw [hikeys]
    exact hnd.map fun a b hab => EvId.leaf.injEq a b ▸ hab
  case infos_bound =>
    intro ev hev
    rw [hikeys] at hev
    obtain ⟨l, -, rfl⟩ := List.mem_map.mp hev
    exact Or.inl ⟨l, rfl⟩
  case edges_target =>
    intro ev hev
    rw [hikeys] at hev
    rw [hvals]
    constructor
    · intro habs
      simp [initState] at habs
    · intro habs
      exact absurd hev habs
  case edges_in_infos =>
    intro q hq
    simp [initState] at hq

/-- Reduced unfolding of `step` when the child lookups succeed and the
assertions pass. -/
theorem step_eq (st : BState) (i : ℕ) (e : List (ℕ × ℕ)) (cpairs : List (ℕ × EvId))
    (cinfos : List EvInfo)
    (h1 : (e.map Prod.snd).dedup.mapM
        (fun c => (lookupA c st.curr).map fun ev => (c, ev)) = some cpairs)
    (hcond : e.length = 2
      ∧ (e.map Prod.fst).dedup.length + (e.map Prod.snd).dedup.length = 3
      ∧ ((cpairs.map Prod.snd).dedup.length = 1 ∨ (cpairs.map Prod.snd).dedup.length = 2))
    (h2 : (cpairs.map Prod.snd).dedup.mapM (fun c => lookupA c st.infos) = some cinfos) :
    step st i e = some (stepResult st i e cpairs cinfos) := by
  show (match (e.map Prod.snd).dedup.mapM
      (fun c => (lookupA c st.curr).map fun ev => (c, ev)) with
    | none => none
    | some cpairs =>
      if e.length = 2
          ∧ (e.map Prod.fst).dedup.length + (e.map Prod.snd).dedup.length = 3
          ∧ ((cpairs.map Prod.snd).dedup.length = 1
            ∨ (cpairs.map Prod.snd).dedup.length = 2) then
        match (cpairs.map Prod.snd).dedup.mapM (fun c => lookupA c st.infos) with
        | none => none
        | some cinfos => some (stepResult st i e cpairs cinfos)
      else none) = some (stepResult st i e cpairs cinfos)
  rw [h1]
  show (if e.length = 2
      ∧ (e.map Prod.fst).dedup.length + (e.map Prod.snd).dedup.length = 3
      ∧ ((cpairs.map Prod.snd).dedup.length = 1
        ∨ (cpairs.map Prod.snd).dedup.length = 2) then
    match (cpairs.map Prod.snd).dedup.mapM (fun c => lookupA c st.infos) with
    | none => none
    | some cinfos => some (stepResult st i e cpairs cinfos)
  else none) = some (stepResult st i e cpairs cinfos)
  rw [if_pos hcond, h2]

/-- Invariant preservation for one successful `step`, stated over the
abstractly resolved owner map `o`, child events `CE`, dictionary entries
`sinf` and frontier `SP`. -/
theorem step_inv_core (st : BState) (live : List ℕ) (i : ℕ)
    (P C SP : List ℕ) (CE : List EvId) (o : ℕ → EvId) (sinf : EvId → EvInfo)
    (cpairs : List (ℕ × EvId)) (cinfos : List EvInfo)
    (hinv : Inv st live i)
    (hPnd : P.Nodup) (hPne : P ≠ [])
    (hchild : ∀ c ∈ C, c ∈ live) (hpar : ∀ p ∈ P, p ∉ live)
    (ho : ∀ c ∈ C, lookupA c st.curr = some (o c))
    (hcp : cpairs = C.map fun c => (c, o c))
    (hCEdef : CE = (cpairs.map Prod.snd).dedup)
    (hsinf : ∀ ev ∈ CE, lookupA ev st.infos = some (sinf ev))
    (hci : cinfos = CE.map sinf)
    (hSPdef : SP = (((cinfos.map EvInfo.subpops).flatten.dedup.filter
      fun q => q ∉ C) ++ P).dedup) :
    Inv ⟨((SP.map fun q => (q, EvId.ev i)) ++ st.curr.filter fun q => q.1 ∉ SP).filter
          fun q => q.1 ∉ C,
        (EvId.ev i, ⟨SP, P, cpairs⟩) :: st.infos,
        st.edges ++ CE.map fun c => (EvId.ev i, c)⟩
      (P ++ live.filter fun q => q ∉ C) (i + 1) := by
  have hSPnd : SP.Nodup := hSPdef ▸ List.nodup_dedup _
  have hoCE : ∀ c ∈ C, o c ∈ CE := by
    intro c hc
    rw [hCEdef, List.mem_dedup, hcp, List.map_map]
    exact List.mem_map.mpr ⟨c, hc, rfl⟩
  have hCEvals : ∀ ev ∈ CE, ∃ c ∈ C, lookupA c st.curr = some ev := by
    intro ev hev
    rw [hCEdef, List.mem_dedup, hcp, List.map_map] at hev
    obtain ⟨c, hc, hceq⟩ := List.mem_map.mp hev
    exact ⟨c, hc, by rw [ho c hc]; exact congrArg some hceq⟩
  have hCEcurrvals : ∀ ev ∈ CE, ev ∈ st.curr.map Prod.snd := by
    intro ev hev
    obtain ⟨c, -, hl⟩ := hCEvals ev hev
    exact List.mem_map.mpr ⟨(c, ev), lookupA_mem hl, rfl⟩
  have hcurrvals_inf : ∀ ev ∈ st.curr.map Prod.snd, ev ∈ st.infos.map Prod.fst := by
    intro ev hev
    obtain ⟨inf0, hl, -, -⟩ := hinv.owner_subpops ev hev
    exact lookupA_mem_keys hl
  have hCEinf : ∀ ev ∈ CE, ev ∈ st.infos.map Prod.fst :=
    fun ev hev => lookupA_mem_keys (hsinf ev hev)
  have hfresh_inf : EvId.ev i ∉ st.infos.map Prod.fst := by
    intro h
    rcases hinv.infos_bound _ h with ⟨p, hp⟩ | ⟨j, hj, hlt⟩
    · cases hp
    · cases hj
      omega
  have hfresh_vals : EvId.ev i ∉ st.curr.map Prod.snd :=
    fun h => hfresh_inf (hcurrvals_inf _ h)
  have hPC : ∀ p ∈ P, p ∉ C := fun p hp hpc => hpar p hp (hchild p hpc)
  have hPSP : ∀ p ∈ P, p ∈ SP := by
    intro p hp
    rw [hSPdef, List.mem_dedup, List.mem_append]
    exact Or.inr hp
  have howner_eq : ∀ ev ∈ CE, ∀ inf0, lookupA ev st.infos = some inf0 → inf0 = sinf ev := by
    intro ev hev inf0 hl
    have := hsinf ev hev
    rw [hl] at this
    exact (Option.some.injEq _ _).mp this
  have hsub_of_CE : ∀ ev ∈ CE, ∀ q, q ∈ (sinf ev).subpops ↔ lookupA q st.curr = some ev := by
    intro ev hev q
    obtain ⟨inf0, hl, -, hiff⟩ := hinv.owner_subpops ev (hCEcurrvals ev hev)
    rw [← howner_eq ev hev inf0 hl]
    exact hiff q
  have hSPcase : ∀ q ∈ SP, q ∈ P ∨ (q ∉ C ∧ ∃ ev ∈ CE, lookupA q st.curr = some ev) := by
    intro q hq
    rw [hSPdef, List.mem_dedup, List.mem_append] at hq
    rcases hq with hq | hq
    · right
      rw [List.mem_filter] at hq
      obtain ⟨hqf, hqc⟩ := hq
      refine ⟨of_decide_eq_true hqc, ?_⟩
      rw [List.mem_dedup, List.mem_flatten] at hqf
      obtain ⟨lsub, hlsub, hqin⟩ := hqf
      rw [hci, List.map_map] at hlsub
      obtain ⟨ev, hev, hleq⟩ := List.mem_map.mp hlsub
      refine ⟨ev, hev, ?_⟩
      rw [← hsub_of_CE ev hev q]
      rw [← hleq] at hqin
      exact hqin
    · exact Or.inl hq
  have hSPC : ∀ q ∈ SP, q ∉ C := by
    intro q hq
    rcases hSPcase q hq with hqP | ⟨hqC, -⟩
    · exact hPC q hqP
    · exact hqC
  have hsubCE_SP : ∀ ev ∈ CE, ∀ q, lookupA q st.curr = some ev → q ∉ C → q ∈ SP := by
    intro ev hev q hl hqC
    rw [hSPdef, List.mem_dedup, List.mem_append]
    left
    rw [List.mem_filter]
    refine ⟨?_, decide_eq_true hqC⟩
    rw [List.mem_dedup, List.mem_flatten]
    refine ⟨(sinf ev).subpops, ?_, (hsub_of_CE ev hev q).mpr hl⟩
    rw [hci, List.map_map]
    exact List.mem_map.mpr ⟨ev, hev, rfl⟩
  have hmapSP : ∀ q : ℕ, lookupA q (SP.map fun x => (x, EvId.ev i))
      = if q ∈ SP then some (EvId.ev i) else none :=
    fun q => lookupA_map_fun q SP fun _ => EvId.ev i
  have L1 : ∀ q : ℕ,
      lookupA q (((SP.map fun x => (x, EvId.ev i))
          ++ st.curr.filter fun x => x.1 ∉ SP).filter fun x => x.1 ∉ C)
        = if q ∈ C then none
          else if q ∈ SP then some (EvId.ev i) else lookupA q st.curr := by
    intro q
    rw [lookupA_filter_key (fun a => decide (a ∉ C)) q]
    by_cases hqC : q ∈ C
    · rw [if_pos hqC]
      simp [hqC]
    · rw [if_neg hqC]
      have hb : decide (q ∉ C) = true := decide_eq_true hqC
      rw [hb]
      show lookupA q ((SP.map fun x => (x, EvId.ev i))
          ++ st.curr.filter fun x => x.1 ∉ SP) = _
      by_cases hqSP : q ∈ SP
      · rw [if_pos hqSP]
        exact lookupA_append_of_some _ (by rw [hmapSP q, if_pos hqSP])
      · rw [if_neg hqSP]
        rw [lookupA_append_of_none _ (by rw [hmapSP q, if_neg hqSP])]
        rw [lookupA_filter_key (fun a => decide (a ∉ SP)) q]
        rw [decide_eq_true hqSP, if_pos rfl]

  have hSPfst : (SP.map fun x => (x, EvId.ev i)).map Prod.fst = SP := by
    rw [List.map_map]
    exact List.map_id' SP
  have hKeq : (((SP.map fun x => (x, EvId.ev i))
        ++ st.curr.filter fun x => x.1 ∉ SP).filter fun x => x.1 ∉ C).map Prod.fst
      = (SP ++ (st.curr.map Prod.fst).filter fun a => decide (a ∉ SP)).filter
          fun a => decide (a ∉ C) := by
    rw [map_fst_filter_key (fun a => decide (a ∉ C)), List.map_append,
      map_fst_filter_key (fun a => decide (a ∉ SP)), hSPfst]
  have hKmem : ∀ p : ℕ, (p ∈ (((SP.map fun x => (x, EvId.ev i))
        ++ st.curr.filter fun x => x.1 ∉ SP).filter fun x => x.1 ∉ C).map Prod.fst)
      ↔ ((p ∈ SP ∨ (p ∈ st.curr.map Prod.fst ∧ p ∉ SP)) ∧ p ∉ C) := by
    intro p
    rw [hKeq]
    simp only [List.mem_filter, List.mem_append, decide_eq_true_eq]
    try tauto
  have V1 : ∀ ev : EvId, (ev ∈ (((SP.map fun x => (x, EvId.ev i))
        ++ st.curr.filter fun x => x.1 ∉ SP).filter fun x => x.1 ∉ C).map Prod.snd)
      ↔ (ev = EvId.ev i ∨ (ev ∈ st.curr.map Prod.snd ∧ ev ∉ CE)) := by
    intro ev
    constructor
    · intro hev
      obtain ⟨x, hx, hxev⟩ := List.mem_map.mp hev
      rw [List.mem_filter] at hx
      obtain ⟨hx1, hx2⟩ := hx
      rcases List.mem_append.mp hx1 with hx1 | hx1
      · obtain ⟨q, -, rfl⟩ := List.mem_map.mp hx1
        exact Or.inl hxev.symm
      · rw [List.mem_filter] at hx1
        obtain ⟨hx1, hx3⟩ := hx1
        right
        refine ⟨List.mem_map.mpr ⟨x, hx1, hxev⟩, ?_⟩
        intro hevCE
        have hlx : lookupA x.1 st.curr = some ev := by
          rw [← hxev]
          exact lookupA_of_mem_nodup _ _ _ hinv.keys_nodup (by rw [Prod.mk.eta]; exact hx1)
        have : x.1 ∈ SP := hsubCE_SP ev hevCE x.1 hlx (of_decide_eq_true hx2)
        exact of_decide_eq_true hx3 this
    · intro hev
      rcases hev with rfl | ⟨hev, hevCE⟩
      · obtain ⟨p0, hp0⟩ : ∃ p0, p0 ∈ P := by
          cases hP0 : P with
          | nil => exact absurd hP0 hPne
          | cons a t => exact ⟨a, hP0 ▸ List.mem_cons_self a t⟩
        have hp0SP := hPSP p0 hp0
        refine List.mem_map.mpr ⟨(p0, EvId.ev i), ?_, rfl⟩
        rw [List.mem_filter]
        refine ⟨List.mem_append.mpr (Or.inl (List.mem_map.mpr ⟨p0, hp0SP, rfl⟩)), ?_⟩
        exact decide_eq_true (hPC p0 hp0)
      · obtain ⟨x, hx, hxev⟩ := List.mem_map.mp hev
        have hlq : lookupA x.1 st.curr = some ev := by
          rw [← hxev]
          exact lookupA_of_mem_nodup _ _ _ hinv.keys_nodup (by rw [Prod.mk.eta]; exact hx)
        have hqC : x.1 ∉ C := by
          intro hqC
          have := ho x.1 hqC
          rw [hlq] at this
          exact hevCE (((Option.some.injEq _ _).mp this) ▸ hoCE x.1 hqC)
        have hqSP : x.1 ∉ SP := by
          intro hqSP
          rcases hSPcase x.1 hqSP with hqP | ⟨-, ev', hev', hl'⟩
          · exact hpar x.1 hqP ((hinv.keys_live x.1).mp (lookupA_mem_keys hlq))
          · rw [hlq] at hl'
            exact hevCE (((Option.some.injEq _ _).mp hl') ▸ hev')
        refine List.mem_map.mpr ⟨x, ?_, hxev⟩
        rw [List.mem_filter]
        refine ⟨List.mem_append.mpr (Or.inr ?_), decide_eq_true hqC⟩
        rw [List.mem_filter]
        exact ⟨hx, decide_eq_true hqSP⟩
  constructor
  case live_nodup =>
    refine List.Nodup.append hPnd (hinv.live_nodup.filter _) ?_
    intro p hp hpf
    exact hpar p hp (List.mem_of_mem_filter hpf)
  case keys_nodup =>
    rw [hKeq]
    refine List.Nodup.filter _ (List.Nodup.append hSPnd (hinv.keys_nodup.filter _) ?_)
    intro a ha haf
    rw [List.mem_filter] at haf
    exact (of_decide_eq_true haf.2) ha
  case keys_live =>
    intro p
    rw [hKmem p, List.mem_append, List.mem_filter]
    constructor
    · rintro ⟨hp1 | ⟨hpk, hpSP⟩, hpC⟩
      · rcases hSPcase p hp1 with hpP | ⟨-, ev, hev, hl⟩
        · exact Or.inl hpP
        · right
          have : p ∈ st.curr.map Prod.fst := lookupA_mem_keys hl
          exact ⟨(hinv.keys_live p).mp this, decide_eq_true hpC⟩
      · exact Or.inr ⟨(hinv.keys_live p).mp hpk, decide_eq_true hpC⟩
    · rintro (hpP | ⟨hpl, hpC⟩)
      · exact ⟨Or.inl (hPSP p hpP), hPC p hpP⟩
      · have hpC' := of_decide_eq_true hpC
        by_cases hpSP : p ∈ SP
        · exact ⟨Or.inl hpSP, hpC'⟩
        · exact ⟨Or.inr ⟨(hinv.keys_live p).mpr hpl, hpSP⟩, hpC'⟩
  case owner_subpops =>
    intro ev hev
    rcases (V1 ev).mp hev with rfl | ⟨hev', hevCE⟩
    · refine ⟨⟨SP, P, cpairs⟩, by simp [lookupA], hSPnd, ?_⟩
      intro q
      show q ∈ SP ↔ _
      rw [L1 q]
      constructor
      · intro hq
        rw [if_neg (hSPC q hq), if_pos hq]
      · intro hq
        by_cases hqC : q ∈ C
        · rw [if_pos hqC] at hq
          cases hq
        · rw [if_neg hqC] at hq
          by_cases hqSP : q ∈ SP
          · exact hqSP
          · rw [if_neg hqSP] at hq
            have : EvId.ev i ∈ st.curr.map Prod.snd :=
              List.mem_map.mpr ⟨(q, EvId.ev i), lookupA_mem hq, rfl⟩
            exact absurd this hfresh_vals
    · obtain ⟨inf0, hl0, hnd0, hiff0⟩ := hinv.owner_subpops ev hev'
      have hevne : ev ≠ EvId.ev i := by
        intro h
        exact hfresh_inf (h ▸ hcurrvals_inf ev hev')
      refine ⟨inf0, ?_, hnd0, ?_⟩
      · show (if EvId.ev i = ev then some (⟨SP, P, cpairs⟩ : EvInfo) else _) = some inf0
        rw [if_neg fun h => hevne h.symm]
        exact hl0
      · intro q
        rw [L1 q, hiff0 q]
        constructor
        · intro hq
          have hqC : q ∉ C := by
            intro hqC
            have := ho q hqC
            rw [hq] at this
            exact hevCE (((Option.some.injEq _ _).mp this) ▸ hoCE q hqC)
          have hqSP : q ∉ SP := by
            intro hqSP
            rcases hSPcase q hqSP with hqP | ⟨-, ev', hev'', hl'⟩
            · exact hpar q hqP ((hinv.keys_live q).mp (lookupA_mem_keys hq))
            · rw [hq] at hl'
              exact hevCE (((Option.some.injEq _ _).mp hl') ▸ hev'')
          rw [if_neg hqC, if_neg hqSP]
          exact hq
        · intro hq
          by_cases hqC : q ∈ C
          · rw [if_pos hqC] at hq
            cases hq
          · rw [if_neg hqC] at hq
            by_cases hqSP : q ∈ SP
            · rw [if_pos hqSP] at hq
              exact absurd ((Option.some.injEq _ _).mp hq).symm hevne
            · rw [if_neg hqSP] at hq
              exact hq
  case infos_nodup =>
    rw [List.map_cons, List.nodup_cons]
    exact ⟨hfresh_inf, hinv.infos_nodup⟩
  case infos_bound =>
    intro ev hev
    rw [List.map_cons] at hev
    rcases List.mem_cons.mp hev with rfl | hev'
    · exact Or.inr ⟨i, rfl, by omega⟩
    · rcases hinv.infos_bound ev hev' with h | ⟨j, hj, hlt⟩
      · exact Or.inl h
      · exact Or.inr ⟨j, hj, by omega⟩
  case edges_target =>
    intro ev hev
    have htgt : ev ∈ (st.edges ++ CE.map fun c => (EvId.ev i, c)).map Prod.snd
        ↔ (ev ∈ st.edges.map Prod.snd ∨ ev ∈ CE) := by
      rw [List.map_append, List.mem_append, List.map_map]
      constructor
      · rintro (h | h)
        · exact Or.inl h
        · obtain ⟨c, hc, hceq⟩ := List.mem_map.mp h
          have hce : c = ev := hceq
          exact Or.inr (hce ▸ hc)
      · rintro (h | h)
        · exact Or.inl h
        · exact Or.inr (List.mem_map.mpr ⟨ev, h, rfl⟩)
    rw [htgt, V1 ev]
    rw [List.map_cons] at hev
    rcases List.mem_cons.mp hev with rfl | hev'
    · constructor
      · rintro (h | h)
        · obtain ⟨x, hx, hxeq⟩ := List.mem_map.mp h
          have := (hinv.edges_in_infos x hx).2
          rw [hxeq] at this
          exact absurd this hfresh_inf
        · exact absurd (hCEinf _ h) hfresh_inf
      · intro h
        exact absurd (Or.inl rfl) h
    · have hne : ev ≠ EvId.ev i := fun h => hfresh_inf (h ▸ hev')
      rw [hinv.edges_target ev hev']
      constructor
      · rintro (h | h)
        · intro habs
          rcases habs with habs | ⟨hv, -⟩
          · exact hne habs
          · exact h hv
        · intro habs
          rcases habs with habs | ⟨-, hnCE⟩
          · exact hne habs
          · exact hnCE h
      · intro h
        by_cases hCEev : ev ∈ CE
        · exact Or.inr hCEev
        · left
          intro hv
          exact h (Or.inr ⟨hv, hCEev⟩)
  case edges_in_infos =>
    intro q hq
    rw [List.map_cons]
    rcases List.mem_append.mp hq with hq' | hq'
    · have := hinv.edges_in_infos q hq'
      exact ⟨List.mem_cons_of_mem _ this.1, List.mem_cons_of_mem _ this.2⟩
    · obtain ⟨c, hc, rfl⟩ := List.mem_map.mp hq'
      exact ⟨List.mem_cons_self _ _, List.mem_cons_of_mem _ (hCEinf c hc)⟩

/-- One well-formed event step succeeds and preserves the builder invariant,
consuming its child populations and adding its parent populations to the live
set. -/
theorem step_inv (st : BState) (live : List ℕ) (i : ℕ) (e : List (ℕ × ℕ))
    (hinv : Inv st live i) (hlen : e.length = 2)
    (hroles : (e.map Prod.fst).dedup.length + (e.map Prod.snd).dedup.length = 3)
    (hchild : ∀ c ∈ (e.map Prod.snd).dedup, c ∈ live)
    (hpar : ∀ p ∈ (e.map Prod.fst).dedup, p ∉ live) :
    ∃ st', step st i e = some st' ∧
      Inv st' ((e.map Prod.fst).dedup
        ++ live.filter fun q => q ∉ (e.map Prod.snd).dedup) (i + 1) := by
  have ho : ∀ c ∈ (e.map Prod.snd).dedup,
      lookupA c st.curr = some ((lookupA c st.curr).getD (EvId.leaf 0)) := by
    intro c hc
    have hck : c ∈ st.curr.map Prod.fst := (hinv.keys_live c).mpr (hchild c hc)
    cases hl : lookupA c st.curr with
    | none => exact absurd hck ((lookupA_eq_none c st.curr).mp hl)
    | some v => rfl
  have h1 : (e.map Prod.snd).dedup.mapM (fun c => (lookupA c st.curr).map fun ev => (c, ev))
      = some ((e.map Prod.snd).dedup.map
          fun c => (c, (lookupA c st.curr).getD (EvId.leaf 0))) := by
    refine mapM_eq_some_map _ _ _ fun c hc => ?_
    rw [ho c hc]
    rfl
  have hsinf : ∀ ev ∈ ((((e.map Prod.snd).dedup.map
        fun c => (c, (lookupA c st.curr).getD (EvId.leaf 0))).map Prod.snd).dedup),
      lookupA ev st.infos = some ((lookupA ev st.infos).getD ⟨[], [], []⟩) := by
    intro ev hev
    rw [List.mem_dedup, List.map_map] at hev
    obtain ⟨c, hc, hceq⟩ := List.mem_map.mp hev
    have hgd : (lookupA c st.curr).getD (EvId.leaf 0) = ev := hceq
    have hlc := ho c hc
    rw [hgd] at hlc
    have hvals : ev ∈ st.curr.map Prod.snd :=
      List.mem_map.mpr ⟨(c, ev), lookupA_mem hlc, rfl⟩
    obtain ⟨inf0, hl0, -, -⟩ := hinv.owner_subpops ev hvals
    rw [hl0]
    rfl
  have h2 : ((((e.map Prod.snd).dedup.map
        fun c => (c, (lookupA c st.curr).getD (EvId.leaf 0))).map Prod.snd).dedup).mapM
        (fun c => lookupA c st.infos)
      = some (((((e.map Prod.snd).dedup.map
          fun c => (c, (lookupA c st.curr).getD (EvId.leaf 0))).map Prod.snd).dedup).map
            fun ev => (lookupA ev st.infos).getD ⟨[], [], []⟩) :=
    mapM_eq_some_map _ _ _ fun ev hev => hsinf ev hev
  have hPle : (e.map Prod.fst).dedup.length ≤ 2 :=
    le_trans (List.dedup_sublist _).length_le (by rw [List.length_map, hlen])
  have hCle : (e.map Prod.snd).dedup.length ≤ 2 :=
    le_trans (List.dedup_sublist _).length_le (by rw [List.length_map, hlen])
  have hCpos : 0 < (e.map Prod.snd).dedup.length := by omega
  have hPpos : 0 < (e.map Prod.fst).dedup.length := by omega
  have hCEle : ((((e.map Prod.snd).dedup.map
        fun c => (c, (lookupA c st.curr).getD (EvId.leaf 0))).map Prod.snd).dedup).length
      ≤ (e.map Prod.snd).dedup.length := by
    refine le_trans (List.dedup_sublist _).length_le ?_
    rw [List.length_map, List.length_map]
  have hCEpos : 0 < ((((e.map Prod.snd).dedup.map
        fun c => (c, (lookupA c st.curr).getD (EvId.leaf 0))).map Prod.snd).dedup).length := by
    obtain ⟨c0, hc0⟩ := List.exists_mem_of_length_pos hCpos
    have : (lookupA c0 st.curr).getD (EvId.leaf 0)
        ∈ (((e.map Prod.snd).dedup.map
          fun c => (c, (lookupA c st.curr).getD (EvId.leaf 0))).map Prod.snd).dedup := by
      rw [List.mem_dedup, List.map_map]
      exact List.mem_map.mpr ⟨c0, hc0, rfl⟩
    exact List.length_pos.mpr (List.ne_nil_of_mem this)
  have hPne : (e.map Prod.fst).dedup ≠ [] :=
    List.ne_nil_of_length_pos hPpos
  refine ⟨_, step_eq st i e _ _ h1 ⟨hlen, hroles, by omega⟩ h2, ?_⟩
  exact step_inv_core st live i
    (e.map Prod.fst).dedup (e.map Prod.snd).dedup _ _
    (fun c => (lookupA c st.curr).getD (EvId.leaf 0))
    (fun ev => (lookupA ev st.infos).getD ⟨[], [], []⟩)
    _ _ hinv (List.nodup_dedup _) hPne hchild hpar ho rfl rfl hsinf rfl rfl

/-- Processing a well-formed event list succeeds and ends in an invariant
state whose live set is a single population. -/
theorem processFrom_inv (events : List (List (ℕ × ℕ))) :
    ∀ (st : BState) (live : List ℕ) (i : ℕ),
      Inv st live i → wfEvents live events = true →
      ∃ st' live', processFrom st i events = some st' ∧ live'.length = 1 ∧
        Inv st' live' (i + events.length) := by
  induction events with
  | nil =>
    intro st live i hinv hwf
    have h1 : live.length = 1 := by simpa [wfEvents] using hwf
    exact ⟨st, live, rfl, h1, by simpa using hinv⟩
  | cons e rest ih =>
    intro st live i hinv hwf
    rw [wfEvents] at hwf
    simp only [Bool.and_eq_true, decide_eq_true_eq] at hwf
    obtain ⟨⟨⟨⟨hlen, hroles⟩, hchild⟩, hpar⟩, hwfrest⟩ := hwf
    obtain ⟨st1, hstep, hinv1⟩ := step_inv st live i e hinv hlen hroles hchild hpar
    obtain ⟨st', live', hproc, hlen1, hinv'⟩ := ih st1 _ (i + 1) hinv1 hwfrest
    refine ⟨st', live', ?_, hlen1, ?_⟩
    · show (step st i e).bind (fun st2 => processFrom st2 (i + 1) rest) = some st'
      rw [hstep]
      exact hproc
    · have hb : i + (e :: rest).length = (i + 1) + rest.length := by
        rw [List.length_cons]
        omega
      rw [hb]
      exact hinv'

/-- An event whose parent/child role count is not `3` makes `step` fail
(the source's role-count assertion). -/
theorem step_roles_bad (st : BState) (i : ℕ) (e : List (ℕ × ℕ))
    (hbad : ¬((e.map Prod.fst).dedup.length + (e.map Prod.snd).dedup.length = 3)) :
    step st i e = none := by
  show (match (e.map Prod.snd).dedup.mapM
      (fun c => (lookupA c st.curr).map fun ev => (c, ev)) with
    | none => none
    | some cpairs =>
      if e.length = 2
          ∧ (e.map Prod.fst).dedup.length + (e.map Prod.snd).dedup.length = 3
          ∧ ((cpairs.map Prod.snd).dedup.length = 1
            ∨ (cpairs.map Prod.snd).dedup.length = 2) then
        match (cpairs.map Prod.snd).dedup.mapM (fun c => lookupA c st.infos) with
        | none => none
        | some cinfos => some (stepResult st i e cpairs cinfos)
      else none) = none
  cases hm : (e.map Prod.snd).dedup.mapM
      (fun c => (lookupA c st.curr).map fun ev => (c, ev)) with
  | none =>
    rfl
  | some cp =>
    show (if e.length = 2
        ∧ (e.map Prod.fst).dedup.length + (e.map Prod.snd).dedup.length = 3
        ∧ ((cp.map Prod.snd).dedup.length = 1 ∨ (cp.map Prod.snd).dedup.length = 2) then
      match (cp.map Prod.snd).dedup.mapM (fun c => lookupA c st.infos) with
      | none => none
      | some cinfos => some (stepResult st i e cp cinfos)
    else none) = none
    rw [if_neg]
    rintro ⟨-, h2, -⟩
    exact hbad h2

/-- A role-count violation anywhere in the event list makes the whole
processing fail. -/
theorem processFrom_roles_bad (events : List (List (ℕ × ℕ)))
    (hbad : ∃ e ∈ events,
      ¬((e.map Prod.fst).dedup.length + (e.map Prod.snd).dedup.length = 3)) :
    ∀ st i, processFrom st i events = none := by
  induction events with
  | nil =>
    obtain ⟨e, he, -⟩ := hbad
    exact absurd he (List.not_mem_nil e)
  | cons e rest ih =>
    intro st i
    obtain ⟨e', he', hbad'⟩ := hbad
    show (step st i e).bind (fun st2 => processFrom st2 (i + 1) rest) = none
    rcases List.mem_cons.mp he' with rfl | he''
    · rw [step_roles_bad st i e' hbad']
      rfl
    · cases hst : step st i e with
      | none => rfl
      | some st1 =>
        show (some st1).bind (fun st2 => processFrom st2 (i + 1) rest) = none
        exact ih ⟨e', he'', hbad'⟩ st1 (i + 1)

/-- C6: for a well-formed demographic graph (nodup leaves and a well-formed
event list per section 4.3), the constructed event tree has exactly one root
event, and that root's `subpops` is the single population representing the
whole sample (the one live population left); construction fails if a raw
event's distinct parent plus child population roles do not count exactly 3,
and fails at the final assertion if more than one live population remains. -/
theorem C6_event_tree_shape (leaves : List ℕ) (events : List (List (ℕ × ℕ))) :
    (leaves.Nodup → wfEvents leaves events = true →
      ∃ st root p, eventTree leaves events = some (st, root) ∧
        treeRoots st = [root] ∧ st.curr = [(p, root)] ∧
        ∃ inf, lookupA root st.infos = some inf ∧ inf.subpops = [p]) ∧
    ((∃ e ∈ events,
        ¬((e.map Prod.fst).dedup.length + (e.map Prod.snd).dedup.length = 3))
      → eventTree leaves events = none) ∧
    (∀ st', processFrom (initState leaves) 0 events = some st' →
      1 < st'.curr.length → eventTree leaves events = none) := by
  refine ⟨?_, ?_, ?_⟩
  · intro hnd hwf
    obtain ⟨st', live', hproc, hlen1, hinv⟩ :=
      processFrom_inv events (initState leaves) leaves 0 (inv_init leaves hnd) hwf
    have hkeylen : (st'.curr.map Prod.fst).length = live'.length :=
      length_eq_of_nodup_mem_iff _ _ hinv.keys_nodup hinv.live_nodup hinv.keys_live
    have hcurrlen : st'.curr.length = 1 := by
      rw [List.length_map] at hkeylen
      omega
    obtain ⟨x, hx⟩ : ∃ x, st'.curr = [x] := by
      cases hc : st'.curr with
      | nil => rw [hc] at hcurrlen; simp at hcurrlen
      | cons a t =>
        cases t with
        | nil => exact ⟨a, rfl⟩
        | cons b u => rw [hc] at hcurrlen; simp at hcurrlen
    obtain ⟨p, root⟩ := x
    have hvals : st'.curr.map Prod.snd = [root] := by rw [hx]; rfl
    have hrootval : root ∈ st'.curr.map Prod.snd := by
      rw [hvals]
      exact List.mem_cons_self _ _
    refine ⟨st', root, p, ?_, ?_, hx, ?_⟩
    · show (processFrom (initState leaves) 0 events).bind _ = _
      rw [hproc]
      show (match st'.curr with
        | [(_, r)] => some (st', r)
        | _ => none) = some (st', root)
      rw [hx]
    · obtain ⟨inf, hl, -, -⟩ := hinv.owner_subpops root hrootval
      have hrootinf : root ∈ st'.infos.map Prod.fst := lookupA_mem_keys hl
      show (st'.infos.map Prod.fst).filter
        (fun ev => ev ∉ st'.edges.map Prod.snd) = [root]
      refine filter_eq_singleton _ _ root hinv.infos_nodup hrootinf ?_
      intro ev hev
      have htgt := hinv.edges_target ev hev
      constructor
      · intro hpt
        have hnott : ev ∉ st'.edges.map Prod.snd := of_decide_eq_true hpt
        have hval : ev ∈ st'.curr.map Prod.snd := by
          by_contra h
          exact hnott (htgt.mpr h)
        rw [hvals] at hval
        simpa using hval
      · intro heq
        subst heq
        refine decide_eq_true ?_
        intro ht
        have hnv := htgt.mp ht
        exact hnv hrootval
    · obtain ⟨inf, hl, hnd0, hiff⟩ := hinv.owner_subpops root hrootval
      refine ⟨inf, hl, ?_⟩
      refine eq_singleton_of_nodup_mem_iff _ _ hnd0 ?_
      intro q
      rw [hiff q, hx]
      constructor
      · intro hlq
        by_cases hpq : p = q
        · exact hpq.symm
        · simp [lookupA, hpq] at hlq
      · intro hq
        subst hq
        simp [lookupA]
  · intro hbad
    show (processFrom (initState leaves) 0 events).bind _ = none
    rw [processFrom_roles_bad events hbad (initState leaves) 0]
    rfl
  · intro st' hproc hgt
    show (processFrom (initState leaves) 0 events).bind _ = none
    rw [hproc]
    show (match st'.curr with
      | [(_, r)] => some (st', r)
      | _ => none) = none
    cases hc : st'.curr with
    | nil => rfl
    | cons a t =>
      cases t with
      | nil => rw [hc] at hgt; simp at hgt
      | cons b u => rfl

/-- Witness for C6: two leaves `1, 2` merged by a single event into the
ancestral population `3`. -/
theorem C6_witness :
    ∃ st root p, eventTree [1, 2] [[(3, 1), (3, 2)]] = some (st, root) ∧
      treeRoots st = [root] ∧ st.curr = [(p, root)] ∧
      ∃ inf, lookupA root st.infos = some inf ∧ inf.subpops = [p] :=
  (C6_event_tree_shape [1, 2] [[(3, 1), (3, 2)]]).1 (by decide) (by decide)

end Momi
